import Mathlib

/-!
Shallow embedding of the markdown-extractor pipeline (src/app.py) and proofs
about the claims of its specification.

Conventions of the embedding:
* Python strings are Lean `String`s; all character-level work happens on
  `String.data : List Char`.  Character classes (`\s`, `\w`, upper/lower case)
  are modelled over ASCII, which covers every string the claims mention.
* Python `re.sub` is modelled by structurally recursive scanners that follow
  the leftmost-match, continue-after-the-match semantics of `re.sub`; scanners
  that skip a variable number of characters after a match take an explicit
  fuel argument (always called with fuel = length of the list, which is ample
  since every step consumes at least one character).
* Python `list.sort` / `sorted` (Timsort, a stable sort) is modelled by a
  stable insertion sort `isort`.
* pdf page coordinates (floats in the source) are modelled as rationals.
* Page numbers are naturals; python ints that reach the modelled code paths
  in the claims are non-negative.
-/

namespace MdExtract

/-- ASCII model of Python's `\s` class (whitespace). -/
def isPyWs (c : Char) : Bool :=
  c = ' ' || c = '\t' || c = '\n' || c = '\r' || c = '\x0b' || c = '\x0c'

/-- The class `[ \t]` used by `clean_text`'s first substitution. -/
def isSpTab (c : Char) : Bool :=
  c = ' ' || c = '\t'

/-- ASCII model of Python's `\w` class. -/
def isWordChar (c : Char) : Bool :=
  c.isAlpha || c.isDigit || c = '_'

/-- A cased character (ASCII): upper or lower case letter. -/
def isCased (c : Char) : Bool :=
  c.isUpper || c.isLower

/-- Python `str.strip()` on the character list: drop whitespace at both ends. -/
def stripChars (l : List Char) : List Char :=
  ((l.dropWhile isPyWs).reverse.dropWhile isPyWs).reverse

/-- Python `str.strip()`. -/
def pyStrip (s : String) : String :=
  String.mk (stripChars s.data)

/-- Python `str.isupper()` (ASCII): at least one cased character and every
cased character upper case. -/
def pyIsUpper (s : String) : Bool :=
  s.data.any isCased && s.data.all (fun c => !isCased c || c.isUpper)

/-- Whether the last character of `s` is `c` — Python `s.endswith(c)` for a
single-character suffix. -/
def lastCharIs (s : String) (c : Char) : Bool :=
  s.data.getLast? = some c

/-- Python `'\n'`-splitting, `text.split('\n')`: `"".split('\n') = ['']`. -/
def splitNl : List Char → List (List Char)
  | [] => [[]]
  | c :: rest =>
    if c = '\n' then [] :: splitNl rest
    else
      match splitNl rest with
      | [] => [[c]]
      | h :: t => (c :: h) :: t

/-- `text.split('\n')` on strings. -/
def pyLines (s : String) : List String :=
  (splitNl s.data).map String.mk

/-- Python `sep.join(xs)`. -/
def pyJoin (sep : String) : List String → String
  | [] => ""
  | [x] => x
  | x :: xs => x ++ sep ++ pyJoin sep xs

/-- Python `''.join(xs)`. -/
def joinAll : List String → String
  | [] => ""
  | x :: xs => x ++ joinAll xs

/-- Decimal digits of `n`, most significant first (fuelled; fuel `n+1` is
always enough).  Models Python `str(n)` for natural `n`. -/
def decChars : ℕ → ℕ → List Char
  | 0, _ => []
  | fuel+1, n => if n < 10 then [Nat.digitChar n] else decChars fuel (n / 10) ++ [Nat.digitChar (n % 10)]

/-- Python `str(n)` for a natural number. -/
def natStr (n : ℕ) : String :=
  String.mk (decChars (n + 1) n)

/-- Stable insertion into a sorted list: `x` goes in front of the first
element `y` with `le x y` (so equal keys keep their original order, as in
Python's stable sort). -/
def insertSorted (le : α → α → Bool) (x : α) : List α → List α
  | [] => [x]
  | y :: ys => if le x y then x :: y :: ys else y :: insertSorted le x ys

/-- Stable sort modelling Python `sorted` / `list.sort`. -/
def isort (le : α → α → Bool) : List α → List α
  | [] => []
  | x :: xs => insertSorted le x (isort le xs)

/-!  ### `clean_text` (src/app.py lines 60–80)

Each Python `re.sub` becomes one scanner, applied in source order.  -/

/-- `re.sub(r'[ \t]+', ' ', text)`: collapse runs of spaces/tabs to one
space.  The boolean state is true while inside a run that has already been
replaced. -/
def reSpaceTab : Bool → List Char → List Char
  | _, [] => []
  | true, c :: rest =>
    if isSpTab c then reSpaceTab true rest else c :: reSpaceTab false rest
  | false, c :: rest =>
    if isSpTab c then ' ' :: reSpaceTab true rest else c :: reSpaceTab false rest

/-- `re.sub(r'(\w)-\s*\n\s*(\w)', r'\1\2', text)`: a word character, `-`, a
whitespace run containing a newline, a word character — replaced by the two
word characters; scanning resumes after the match.  On failure at a position
the scanner advances one character. -/
def reHyphenNl : ℕ → List Char → List Char
  | 0, l => l
  | _+1, [] => []
  | fuel+1, c :: rest =>
    if isWordChar c ∧ rest.head? = some '-' then
      if '\n' ∈ rest.tail.takeWhile isPyWs then
        match rest.tail.dropWhile isPyWs with
        | c2 :: r2 =>
          if isWordChar c2 then c :: c2 :: reHyphenNl fuel r2
          else c :: reHyphenNl fuel rest
        | [] => c :: reHyphenNl fuel rest
      else c :: reHyphenNl fuel rest
    else c :: reHyphenNl fuel rest

/-- `re.sub(r'(\w)-\s+(\w)', r'\1\2', text)`: like `reHyphenNl` but the
whitespace run need only be non-empty. -/
def reHyphenSp : ℕ → List Char → List Char
  | 0, l => l
  | _+1, [] => []
  | fuel+1, c :: rest =>
    if isWordChar c ∧ rest.head? = some '-' then
      if !(rest.tail.takeWhile isPyWs).isEmpty then
        match rest.tail.dropWhile isPyWs with
        | c2 :: r2 =>
          if isWordChar c2 then c :: c2 :: reHyphenSp fuel r2
          else c :: reHyphenSp fuel rest
        | [] => c :: reHyphenSp fuel rest
      else c :: reHyphenSp fuel rest
    else c :: reHyphenSp fuel rest

/-- `re.sub(r'([a-z])\s*\n\s*([a-z])', r'\1\2', text)`: two lowercase letters
separated by a whitespace run containing a newline are joined. -/
def reLowerJoin : ℕ → List Char → List Char
  | 0, l => l
  | _+1, [] => []
  | fuel+1, c :: rest =>
    if c.isLower then
      if '\n' ∈ rest.takeWhile isPyWs then
        match rest.dropWhile isPyWs with
        | c2 :: r2 =>
          if c2.isLower then c :: c2 :: reLowerJoin fuel r2
          else c :: reLowerJoin fuel rest
        | [] => c :: reLowerJoin fuel rest
      else c :: reLowerJoin fuel rest
    else c :: reLowerJoin fuel rest

/-- `re.sub(r'  +', ' ', text)`: two or more spaces collapse to one. -/
def reMultiSpace : Bool → List Char → List Char
  | _, [] => []
  | true, c :: rest =>
    if c = ' ' then reMultiSpace true rest else c :: reMultiSpace false rest
  | false, c :: rest =>
    if c = ' ' && rest.head? = some ' ' then ' ' :: reMultiSpace true rest
    else c :: reMultiSpace false rest

/-- `re.sub(r'\n\n+', '\n\n', text)`: three or more newlines collapse to two. -/
def reMultiNl : Bool → List Char → List Char
  | _, [] => []
  | true, c :: rest =>
    if c = '\n' then reMultiNl true rest else c :: reMultiNl false rest
  | false, [c] => [c]
  | false, c :: d :: rest =>
    if c = '\n' ∧ d = '\n' then '\n' :: '\n' :: reMultiNl true rest
    else c :: reMultiNl false (d :: rest)

/-- `clean_text` (src/app.py lines 60–80): the six substitutions in source
order followed by `strip()`. -/
def clean_text (s : String) : String :=
  let l1 := reSpaceTab false s.data
  let l2 := reHyphenNl l1.length l1
  let l3 := reHyphenSp l2.length l2
  let l4 := reLowerJoin l3.length l3
  let l5 := reMultiSpace false l4
  let l6 := reMultiNl false l5
  String.mk (stripChars l6)

/-!  ### `detect_heading`, `is_list_item`, `format_line_as_markdown`
(src/app.py lines 83–125, 247–261)  -/

/-- `detect_heading` (src/app.py lines 83–101). -/
def detect_heading (line0 : String) (nextLine : Option String) : Bool :=
  let line := pyStrip line0
  if line.data.isEmpty then false
  else if line.data.length ≥ 3 && pyIsUpper line && !lastCharIs line '.' then true
  else if line.data.length < 60 then
    match nextLine with
    | some nl =>
      if (pyStrip nl).data.isEmpty then
        match line.data with
        | c :: _ =>
          c.isUpper && !(lastCharIs line ',' || lastCharIs line ';' || lastCharIs line ':')
        | [] => false
      else false
    | none => false
  else false

/-- Match of `^[•\-\*]\s+` (a bullet glyph followed by whitespace). -/
def isBulletStart : List Char → Bool
  | c :: w :: _ => (c = '•' || c = '-' || c = '*') && isPyWs w
  | _ => false

/-- Match of `^\d+[\.\)]\s+` (digits, then `.` or `)`, then whitespace). -/
def isNumberedStart (l : List Char) : Bool :=
  match l.dropWhile Char.isDigit with
  | p :: w :: _ =>
    !(l.takeWhile Char.isDigit).isEmpty && (p = '.' || p = ')') && isPyWs w
  | _ => false

/-- `is_list_item` (src/app.py lines 247–261). -/
def is_list_item (line0 : String) : Bool :=
  let line := pyStrip line0
  if line.data.isEmpty then false
  else isBulletStart line.data || isNumberedStart line.data

/-- `format_line_as_markdown` (src/app.py lines 104–125). -/
def format_line_as_markdown (line0 : String) (is_heading : Bool) (heading_level : ℕ) : String :=
  let line := pyStrip line0
  if line.data.isEmpty then ""
  else if isBulletStart line.data then
    String.mk ('-' :: ' ' :: line.data.tail.dropWhile isPyWs)
  else if isNumberedStart line.data then line
  else if is_heading then String.mk (List.replicate heading_level '#') ++ " " ++ line
  else line

/-- Match of `^Page\s+\d+\s*$` with `re.IGNORECASE`
(src/app.py line 484). -/
def isPageNumberLine (s : String) : Bool :=
  match s.data with
  | p :: a :: g :: e :: rest =>
    (p.toLower = 'p' && a.toLower = 'a' && g.toLower = 'g' && e.toLower = 'e') &&
    !(rest.takeWhile isPyWs).isEmpty &&
    (let r1 := rest.dropWhile isPyWs
     !(r1.takeWhile Char.isDigit).isEmpty && (r1.dropWhile Char.isDigit).all isPyWs)
  | _ => false

/-!  ### `extract_text_with_layout` (src/app.py lines 128–244)

Tokens ("words") carry their text, horizontal span and vertical position;
coordinates (floats in the source) are rationals here. -/

structure Word where
  text : String
  x0 : ℚ
  x1 : ℚ
  top : ℚ
deriving DecidableEq

/-- Python `int()` on a rational: truncation toward zero. -/
def ratTrunc (q : ℚ) : ℤ :=
  if q < 0 then ⌈q⌉ else ⌊q⌋

/-- `sorted(set([int(w['x0']) for w in words] + [int(w['x1']) for w in words]))`
(src/app.py line 147). -/
def xPositions (ws : List Word) : List ℤ :=
  isort (fun a b => decide (a ≤ b)) ((ws.map (fun w => ratTrunc w.x0) ++ ws.map (fun w => ratTrunc w.x1)).dedup)

/-- Consecutive pairs of a list (`x[i], x[i+1]`). -/
def consecPairs : List ℤ → List (ℤ × ℤ)
  | a :: b :: rest => (a, b) :: consecPairs (b :: rest)
  | _ => []

/-- The qualifying gaps `(gap_size, gap_center)` (src/app.py lines 150–157):
size above 40 and center strictly inside the middle half of the page. -/
def gapsOf (ws : List Word) (width : ℚ) : List (ℤ × ℚ) :=
  (consecPairs (xPositions ws)).filterMap fun ab =>
    let size := ab.2 - ab.1
    let center := ((ab.1 + ab.2 : ℤ) : ℚ) / 2
    if size > 40 ∧ width * (1/4) < center ∧ center < width * (3/4) then some (size, center)
    else none

/-- `gaps.sort(reverse=True); gaps[0]`: the lexicographic maximum of the
`(size, center)` pairs. -/
def lexMaxGap : (ℤ × ℚ) → List (ℤ × ℚ) → (ℤ × ℚ)
  | g, [] => g
  | g, h :: t => lexMaxGap (if g.1 < h.1 ∨ (g.1 = h.1 ∧ g.2 < h.2) then h else g) t

/-- `column_boundaries` (src/app.py lines 159–172): two columns split at the
center of the widest qualifying gap, otherwise a single column. -/
def columnBoundaries (ws : List Word) (width : ℚ) : List (ℚ × ℚ × ℕ) :=
  match gapsOf ws width with
  | [] => [(0, width, 0)]
  | g :: gs => [(0, (lexMaxGap g gs).2, 0), ((lexMaxGap g gs).2, width, 1)]

def wordCenter (w : Word) : ℚ :=
  (w.x0 + w.x1) / 2

/-- Lexicographic minimum of `(distance, column_index)` pairs, as Python
`min` on tuples; the earliest of equal elements is kept. -/
def lexMinDist (x : ℚ × ℕ) : List (ℚ × ℕ) → ℚ × ℕ
  | [] => x
  | h :: t => lexMinDist (if h.1 < x.1 ∨ (h.1 = x.1 ∧ h.2 < x.2) then h else x) t

/-- Column assignment of one word (src/app.py lines 174–188): the first
boundary whose range contains the word center, else the nearest boundary by
center distance. -/
def assignColumn (bs : List (ℚ × ℚ × ℕ)) (w : Word) : ℕ :=
  match bs.find? (fun b => decide (b.1 ≤ wordCenter w ∧ wordCenter w ≤ b.2.1)) with
  | some b => b.2.2
  | none =>
    match bs.map (fun b => (|wordCenter w - (b.1 + b.2.1) / 2|, b.2.2)) with
    | [] => 0
    | d :: ds => (lexMinDist d ds).2

/-- Sort key `(top, x0)` for words of one column (src/app.py line 201). -/
def wordLe (a b : Word) : Bool :=
  decide (a.top < b.top ∨ (a.top = b.top ∧ a.x0 ≤ b.x0))

/-- Sort key `top` for the lines of one column (src/app.py line 229). -/
def lineLe (a b : ℚ × String) : Bool :=
  decide (a.1 ≤ b.1)

/-- The grouping loop (src/app.py lines 204–226): `first` is the first word
of the currently open line and `restW` the words appended to it so far.  In
the source `last_top` is set exactly when a line is opened, so it always
equals the top of the line's first word; a new line starts when a word's top
differs from it by more than the tolerance 5.  Each emitted line carries the
top of its first word and the space-joined word texts. -/
def groupLoop (first : Word) (restW : List Word) : List Word → List (ℚ × String)
  | [] => [(first.top, pyJoin " " ((first :: restW).map Word.text))]
  | w :: ws =>
    if |w.top - first.top| ≤ 5 then groupLoop first (restW ++ [w]) ws
    else (first.top, pyJoin " " ((first :: restW).map Word.text)) :: groupLoop w [] ws

/-- Group a column's (sorted) words into lines. -/
def groupWords : List Word → List (ℚ × String)
  | [] => []
  | w :: ws => groupLoop w [] ws

/-- The words of column `ci`, sorted by `(top, x0)` (src/app.py lines
195–201). -/
def columnWords (ws : List Word) (bs : List (ℚ × ℚ × ℕ)) (ci : ℕ) : List Word :=
  isort wordLe (ws.filter (fun w => assignColumn bs w = ci))

/-- The `(top, text)` lines of column `ci`, sorted by top
(src/app.py lines 204–229). -/
def columnLines (ws : List Word) (width : ℚ) (ci : ℕ) : List (ℚ × String) :=
  isort lineLe (groupWords (columnWords ws (columnBoundaries ws width) ci))

/-- All lines of the page in render order, tagged with their column index:
all lines of column 0, then all lines of column 1 (src/app.py lines
191–230). -/
def layoutLines (ws : List Word) (width : ℚ) : List (ℕ × ℚ × String) :=
  (List.range (columnBoundaries ws width).length).flatMap
    fun ci => (columnLines ws width ci).map (fun p => (ci, p.1, p.2))

/-- `extract_text_with_layout` (src/app.py lines 128–244) on a page's words.
With no words the source falls back to the external `page.extract_text()`;
the token-level model returns the empty string there (no layout lines). -/
def extract_text_with_layout (ws : List Word) (width : ℚ) : String :=
  if ws.isEmpty then ""
  else pyJoin "\n" ((layoutLines ws width).map (fun p => p.2.2))

/-!  ### The per-page classifier loop of `extract_text_to_markdown`
(src/app.py lines 466–561) -/

/-- The mutable loop state: emitted markdown chunks (`markdown_content`
restricted to this page), the paragraph buffer, the `in_list` flag and the
list buffer. -/
structure LoopState where
  content : List String
  parBuf : List String
  inList : Bool
  listBuf : List String
deriving DecidableEq

def initState : LoopState := ⟨[], [], false, []⟩

/-- Flush the list buffer: each item on its own line, then a blank line
(src/app.py lines 491–496 etc.). -/
def flushListBuf (st : LoopState) : LoopState :=
  { st with content := st.content ++ st.listBuf.map (· ++ "\n") ++ ["\n"],
            listBuf := [], inList := false }

/-- Flush the paragraph buffer: the space-joined lines and a blank line
(src/app.py lines 497–500 etc.). -/
def flushParBuf (st : LoopState) : LoopState :=
  { st with content := st.content ++ [pyJoin " " st.parBuf ++ "\n\n"], parBuf := [] }

/-- `list_buffer[-1] += suffix`. -/
def appendToLast (suffix : String) : List String → List String
  | [] => []
  | [x] => [x ++ suffix]
  | x :: xs => x :: appendToLast suffix xs

/-- One iteration of the while-loop (src/app.py lines 474–553) on the
current raw line, given the (already stripped) lookahead line.  `ff` is
`filter_headers_footers`, `pf` is `preserve_formatting`. -/
def stepLine (ff pf : Bool) (footers : List String) (st : LoopState)
    (rawLine : String) (nextLine : Option String) : LoopState :=
  let line := pyStrip rawLine
  if ff && footers.contains line then st
  else if ff && isPageNumberLine line then st
  else if line = "" then
    if st.inList && !st.listBuf.isEmpty then flushListBuf st
    else if !st.parBuf.isEmpty then flushParBuf st
    else st
  else
    let isH := if pf then detect_heading line nextLine else false
    if isH then
      let st1 := if st.inList && !st.listBuf.isEmpty then flushListBuf st else st
      let st2 := if !st1.parBuf.isEmpty then flushParBuf st1 else st1
      { st2 with content := st2.content ++ [format_line_as_markdown line true 3 ++ "\n\n"] }
    else if is_list_item line then
      let st1 := if !st.parBuf.isEmpty then flushParBuf st else st
      { st1 with inList := true,
                 listBuf := st1.listBuf ++ [format_line_as_markdown line false 3] }
    else if st.inList then
      if !st.listBuf.isEmpty && !isH then
        { st with listBuf := appendToLast (" " ++ line) st.listBuf }
      else
        let st1 := flushListBuf st
        { st1 with parBuf := st1.parBuf ++ [line] }
    else { st with parBuf := st.parBuf ++ [line] }

/-- The whole while-loop: each line is processed with one stripped line of
lookahead (src/app.py lines 474–476). -/
def processLoop (ff pf : Bool) (footers : List String) : LoopState → List String → LoopState
  | st, [] => st
  | st, l :: rest =>
    processLoop ff pf footers (stepLine ff pf footers st l (rest.head?.map pyStrip)) rest

/-- The flushes after the loop (src/app.py lines 555–561). -/
def endFlush (st : LoopState) : LoopState :=
  let st1 := if st.inList && !st.listBuf.isEmpty then flushListBuf st else st
  if !st1.parBuf.isEmpty then flushParBuf st1 else st1

/-- The markdown chunks a page body contributes: the classifier loop run on
the text's lines, from a fresh state. -/
def classifierChunks (ff pf : Bool) (footers : List String) (text : String) : List String :=
  (endFlush (processLoop ff pf footers initState (pyLines text))).content

/-!  ### The pdfplumber fallback of `extract_text_to_markdown`
(src/app.py lines 426–570) -/

/-- One page as the fallback path sees it: the result of
`page.extract_text()` (pass 1) and of `extract_text_with_layout(page)`
(pass 2).  The empty string models a falsy extraction result (`None` or
`""`). -/
structure PdfPage where
  rawText : String
  layoutText : String
deriving DecidableEq

/-- The `options` dictionary (src/app.py lines 374–380), with the source's
defaults in `defaultOptions`. -/
structure ExtractOptions where
  use_marker : Bool
  use_pymupdf : Bool
  use_markitdown : Bool
  include_page_numbers : Bool
  include_page_breaks : Bool
  filter_headers_footers : Bool
  preserve_formatting : Bool
deriving DecidableEq

def defaultOptions : ExtractOptions :=
  ⟨true, false, false, true, true, true, true⟩

/-- Python `xs[-3:]`. -/
def lastN (n : ℕ) (xs : List α) : List α :=
  xs.drop (xs.length - n)

/-- `range(start_page - 1, end_page)` (page indices are 0-based). -/
def pageRange (startPage endPage : ℕ) : List ℕ :=
  List.range' (startPage - 1) (endPage - (startPage - 1))

/-- The trimmed non-empty lines among the last three raw lines of one page
(src/app.py lines 441–447); a falsy `extract_text()` contributes nothing. -/
def pageSampleLines (p : PdfPage) : List String :=
  if p.rawText = "" then []
  else ((lastN 3 (pyLines p.rawText)).map pyStrip).filter (fun l => l ≠ "")

/-- All sampled trailing lines over the requested range (pass 1). -/
def sampledLines (pages : List PdfPage) (startPage endPage : ℕ) : List String :=
  (pageRange startPage endPage).flatMap fun n => pageSampleLines (pages.getD n ⟨"", ""⟩)

/-- `common_footers` (src/app.py lines 449–452): the distinct sampled lines
occurring more than twice and shorter than 100 characters. -/
def commonFooters (pages : List PdfPage) (startPage endPage : ℕ) : List String :=
  (sampledLines pages startPage endPage).dedup.filter
    fun l => 2 < (sampledLines pages startPage endPage).count l ∧ l.data.length < 100

/-- The `## Page <n>` header chunk (src/app.py lines 461–462). -/
def headerChunks (opts : ExtractOptions) (n : ℕ) : List String :=
  if opts.include_page_numbers then ["## Page " ++ natStr (n + 1) ++ "\n\n"] else []

/-- The page separator chunk (src/app.py lines 563–565). -/
def sepChunks (opts : ExtractOptions) (n endPage : ℕ) : List String :=
  if opts.include_page_breaks && n < endPage - 1 then ["\n---\n\n"] else []

/-- Everything a page with non-empty text contributes after its header: the
classifier output on the cleaned text, then the separator. -/
def bodyChunks (opts : ExtractOptions) (footers : List String) (n endPage : ℕ)
    (text : String) : List String :=
  classifierChunks opts.filter_headers_footers opts.preserve_formatting footers (clean_text text)
    ++ sepChunks opts n endPage

/-- The chunks a page appends to `markdown_content` (src/app.py lines
455–565): nothing if the layout text is falsy, else header, body,
separator. -/
def pageChunks (opts : ExtractOptions) (footers : List String) (n endPage : ℕ)
    (text : String) : List String :=
  if text = "" then [] else headerChunks opts n ++ bodyChunks opts footers n endPage text

/-- All chunks of the fallback extraction over the requested range. -/
def allChunks (pages : List PdfPage) (startPage endPage : ℕ) (opts : ExtractOptions) :
    List String :=
  let footers := if opts.filter_headers_footers then commonFooters pages startPage endPage else []
  (pageRange startPage endPage).flatMap
    fun n => pageChunks opts footers n endPage (pages.getD n ⟨"", ""⟩).layoutText

/-- The wrapped `ValueError` raised for an invalid range (src/app.py lines
435–436 and 569–570). -/
def invalidRangeMsg (total : ℕ) : String :=
  "Error extracting PDF: Invalid page range. PDF has " ++ natStr total ++ " pages."

/-- The pdfplumber fallback branch of `extract_text_to_markdown`
(src/app.py lines 426–570): validate the range, then the two passes. -/
def pdfplumberFallback (pages : List PdfPage) (startPage endPage : ℕ)
    (opts : ExtractOptions) : Except String String :=
  let total := pages.length
  if startPage < 1 || endPage > total || startPage > endPage then
    Except.error (invalidRangeMsg total)
  else Except.ok (joinAll (allChunks pages startPage endPage opts))

/-!  ### `extract_with_pymupdf` (src/app.py lines 310–355) and the backend
dispatcher (src/app.py lines 358–424) -/

/-- The chunks one page contributes in `extract_with_pymupdf`: an
unconditional page header, each well-formed block's stripped non-empty text,
and an unconditional separator.  A page is a list of block texts
(`block[4]` of each block tuple). -/
def pymupdfPageChunks (blocks : List String) (n : ℕ) : List String :=
  ["## Page " ++ natStr (n + 1) ++ "\n\n"]
    ++ blocks.filterMap (fun b => if pyStrip b = "" then none else some (pyStrip b ++ "\n\n"))
    ++ ["\n---\n\n"]

/-- `extract_with_pymupdf` (src/app.py lines 310–355): pages
`range(start_page - 1, end_page)`, stopping at the document length. -/
def extract_with_pymupdf (doc : List (List String)) (startPage endPage : ℕ) : String :=
  joinAll (((pageRange startPage endPage).takeWhile (fun n => n < doc.length)).map
    fun n => joinAll (pymupdfPageChunks (doc.getD n []) n))

/-- Availability and outcomes of the external backend libraries: Marker and
MarkItDown produce their text outside this repository, so their results are
inputs; `pymupdfOpens` models `fitz.open` succeeding. -/
structure Backends where
  markerAvailable : Bool
  pymupdfAvailable : Bool
  markitdownAvailable : Bool
  markerResult : Except String String
  pymupdfOpens : Bool
  markitdownResult : Except String String

/-- One document, as seen by the pdfplumber path and by PyMuPDF. -/
structure Document where
  pages : List PdfPage
  pymupdfPages : List (List String)

/-- `extract_text_to_markdown` (src/app.py lines 358–424 plus the fallback):
try Marker, then PyMuPDF, then MarkItDown (each subject to its option flag
and availability, each falling through on failure), then the pdfplumber
fallback.  MarkItDown's whole-document result is returned only for
`start_page == 1` and `end_page >= total_pages`. -/
def extract_text_to_markdown (d : Document) (b : Backends) (startPage endPage : ℕ)
    (opts : ExtractOptions) : Except String String :=
  let fallback := pdfplumberFallback d.pages startPage endPage opts
  let markitdownStage :=
    if opts.use_markitdown && b.markitdownAvailable then
      match b.markitdownResult with
      | Except.ok full =>
        if startPage = 1 && endPage ≥ d.pages.length then Except.ok full else fallback
      | Except.error _ => fallback
    else fallback
  let pymupdfStage :=
    if opts.use_pymupdf && b.pymupdfAvailable then
      if b.pymupdfOpens then Except.ok (extract_with_pymupdf d.pymupdfPages startPage endPage)
      else markitdownStage
    else markitdownStage
  if opts.use_marker && b.markerAvailable then
    match b.markerResult with
    | Except.ok r => Except.ok r
    | Except.error _ => pymupdfStage
  else pymupdfStage

/-!  ### Python `str.count` -/

/-- One scanning step of Python `str.count`: at each position try to match
the (non-empty) pattern; on success skip past it, otherwise advance one
character.  Fuelled; fuel = length of the scanned list is ample. -/
def countSubF : ℕ → List Char → List Char → ℕ
  | 0, _, _ => 0
  | _+1, _, [] => 0
  | fuel+1, pat, c :: rest =>
    if pat.isPrefixOf (c :: rest) then 1 + countSubF fuel pat ((c :: rest).drop pat.length)
    else countSubF fuel pat rest

/-- Python `s.count(sub)`: non-overlapping occurrences, scanned left to
right. -/
def pyCount (sub s : String) : ℕ :=
  if sub.data.isEmpty then s.data.length + 1
  else countSubF s.data.length sub.data s.data

/-!  ### Specification-side predicates and concrete claim inputs -/

/-- "No two adjacent space/tab characters" — the shape of `reSpaceTab`'s
output. -/
def NoTwoSpTab (a b : Char) : Prop :=
  ¬(isSpTab a = true ∧ isSpTab b = true)

/-- The spec's heading rule (§4.4), stated in its words: (a) the stripped
line has at least 3 characters, is entirely upper case (every letter upper
case and at least one letter, Python `str.isupper`), and does not end in a
period; OR (b) it is under 60 characters, the following line exists and is
blank, it starts with an upper-case character, and it does not end in `,`,
`;` or `:`. -/
def specHeadingCond (line0 : String) (next : Option String) : Prop :=
  (3 ≤ (pyStrip line0).data.length ∧ pyIsUpper (pyStrip line0) = true ∧
    lastCharIs (pyStrip line0) '.' = false) ∨
  ((pyStrip line0).data.length < 60 ∧
    (∃ nl, next = some nl ∧ (pyStrip nl).data = []) ∧
    (∃ c rest, (pyStrip line0).data = c :: rest ∧ c.isUpper = true) ∧
    lastCharIs (pyStrip line0) ',' = false ∧ lastCharIs (pyStrip line0) ';' = false ∧
    lastCharIs (pyStrip line0) ':' = false)

/-- The claim's counterexample input. -/
def c3Input : String := "a- b- c"

/-- Shape of a buffered paragraph line or list item: non-empty and not
starting with a newline. -/
def EntryShape (x : String) : Prop :=
  x.data ≠ [] ∧ x.data.head? ≠ some '\n'

/-- Shape of every chunk the classifier loop appends to `markdown_content`:
it ends with a newline, and it is either exactly `"\n"` or starts with a
non-newline character. -/
def ChunkShape (c : String) : Prop :=
  (∃ t : String, c = t ++ "\n") ∧ (c = "\n" ∨ EntryShape c)

/-- The spec's render-order invariant on tagged lines (§3, Line): strictly
ordered by column index, and within one column by ascending top. -/
def lineOrder (a b : ℕ × ℚ × String) : Prop :=
  a.1 < b.1 ∨ (a.1 = b.1 ∧ a.2.1 < b.2.1)

/-- A five-page document whose pages 1 and 2 end with `"Confidential"`
(2 of 5 pages — below the boilerplate threshold); both extraction passes see
the same text. -/
def c5Doc : List PdfPage :=
  [⟨"Alpha\nConfidential", "Alpha\nConfidential"⟩,
   ⟨"Beta\nConfidential", "Beta\nConfidential"⟩,
   ⟨"Gamma", "Gamma"⟩, ⟨"Delta", "Delta"⟩, ⟨"Epsilon", "Epsilon"⟩]

/-!  ## Theorems -/

set_option maxRecDepth 10000

/-!  ### Generic helper lemmas -/

lemma mem_of_takeWhile {p : Char → Bool} {l : List Char} {c : Char}
    (h : c ∈ l.takeWhile p) : c ∈ l :=
  List.Sublist.mem h (List.takeWhile_sublist p)

lemma mem_of_head? {l : List α} {c : α} (h : l.head? = some c) : c ∈ l := by
  cases l with
  | nil => simp at h
  | cons d rest =>
    simp only [List.head?_cons, Option.some.injEq] at h
    exact h ▸ List.mem_cons_self _ _

lemma dropWhile_head_not {p : Char → Bool} :
    ∀ (l : List Char) {c : Char}, (l.dropWhile p).head? = some c → p c = false := by
  intro l
  induction l with
  | nil => intro c h; simp [List.dropWhile] at h
  | cons d rest ih =>
    intro c h
    rw [List.dropWhile_cons] at h
    split at h
    · exact ih h
    · next hd =>
      simp only [List.head?_cons, Option.some.injEq] at h
      subst h
      simpa using hd

lemma dropWhile_getLast {p : Char → Bool} :
    ∀ (l : List Char), l.dropWhile p ≠ [] → (l.dropWhile p).getLast? = l.getLast? := by
  intro l
  induction l with
  | nil => intro h; simp [List.dropWhile] at h
  | cons d rest ih =>
    intro h
    by_cases hd : p d
    · rw [List.dropWhile_cons, if_pos hd] at h ⊢
      cases rest with
      | nil => simp [List.dropWhile] at h
      | cons e r2 =>
        rw [List.getLast?_cons_cons]
        exact ih h
    · rw [List.dropWhile_cons, if_neg hd]

lemma dropWhile_eq_self_of_head {p : Char → Bool} {l : List Char}
    (h : ∀ c, l.head? = some c → p c = false) : l.dropWhile p = l := by
  cases l with
  | nil => rfl
  | cons d rest =>
    have hd := h d rfl
    simp [List.dropWhile_cons, hd]

lemma stripChars_getLast {l : List Char} {c : Char}
    (h : (stripChars l).getLast? = some c) : isPyWs c = false := by
  unfold stripChars at h
  rw [List.getLast?_reverse] at h
  exact dropWhile_head_not _ h

lemma stripChars_head {l : List Char} {c : Char}
    (h : (stripChars l).head? = some c) : isPyWs c = false := by
  unfold stripChars at h
  rw [List.head?_reverse] at h
  have hne : (l.dropWhile isPyWs).reverse.dropWhile isPyWs ≠ [] := by
    intro h0
    rw [h0] at h
    simp at h
  rw [dropWhile_getLast _ hne, List.getLast?_reverse] at h
  exact dropWhile_head_not _ h

lemma stripChars_idem (l : List Char) : stripChars (stripChars l) = stripChars l := by
  have h1 : (stripChars l).dropWhile isPyWs = stripChars l :=
    dropWhile_eq_self_of_head fun c hc => stripChars_head hc
  have h2 : (stripChars l).reverse.dropWhile isPyWs = (stripChars l).reverse :=
    dropWhile_eq_self_of_head fun c hc => by
      rw [List.head?_reverse] at hc
      exact stripChars_getLast hc
  show (((stripChars l).dropWhile isPyWs).reverse.dropWhile isPyWs).reverse = stripChars l
  rw [h1, h2, List.reverse_reverse]

lemma stripChars_mem {l : List Char} {c : Char} (h : c ∈ stripChars l) : c ∈ l := by
  unfold stripChars at h
  rw [List.mem_reverse] at h
  have h2 := List.Sublist.mem h (List.dropWhile_sublist _)
  rw [List.mem_reverse] at h2
  exact List.Sublist.mem h2 (List.dropWhile_sublist _)

lemma chain'_reverse_of_symm {R : Char → Char → Prop} (hs : ∀ a b, R a b → R b a)
    {l : List Char} (h : List.Chain' R l) : List.Chain' R l.reverse := by
  rw [List.chain'_reverse]
  exact List.Chain'.imp (fun a b hab => hs a b hab) h

lemma stripChars_chain {R : Char → Char → Prop} (hs : ∀ a b, R a b → R b a)
    {l : List Char} (h : List.Chain' R l) : List.Chain' R (stripChars l) := by
  unfold stripChars
  apply chain'_reverse_of_symm hs
  have h1 : List.Chain' R (l.dropWhile isPyWs) :=
    List.Chain'.infix h (List.IsSuffix.isInfix (List.dropWhile_suffix _))
  have h2 : List.Chain' R (l.dropWhile isPyWs).reverse := chain'_reverse_of_symm hs h1
  exact List.Chain'.infix h2 (List.IsSuffix.isInfix (List.dropWhile_suffix _))

/-!  ### Lemmas about the `clean_text` scanners -/


lemma noTwoSpTab_symm : ∀ a b, NoTwoSpTab a b → NoTwoSpTab b a :=
  fun _ _ h hc => h ⟨hc.2, hc.1⟩

lemma reSpaceTab_false_pos {d : Char} {rest : List Char} (hd : isSpTab d = true) :
    reSpaceTab false (d :: rest) = ' ' :: reSpaceTab true rest := by
  simp [reSpaceTab, hd]

lemma reSpaceTab_false_neg {d : Char} {rest : List Char} (hd : isSpTab d = false) :
    reSpaceTab false (d :: rest) = d :: reSpaceTab false rest := by
  simp [reSpaceTab, hd]

lemma reSpaceTab_true_pos {d : Char} {rest : List Char} (hd : isSpTab d = true) :
    reSpaceTab true (d :: rest) = reSpaceTab true rest := by
  simp [reSpaceTab, hd]

lemma reSpaceTab_true_neg {d : Char} {rest : List Char} (hd : isSpTab d = false) :
    reSpaceTab true (d :: rest) = d :: reSpaceTab false rest := by
  simp [reSpaceTab, hd]

lemma reSpaceTab_mem : ∀ (b : Bool) (l : List Char) {c : Char},
    c ∈ reSpaceTab b l → c ∈ l ∨ c = ' ' := by
  intro b l
  induction l generalizing b with
  | nil => intro c h; cases b <;> simp [reSpaceTab] at h
  | cons d rest ih =>
    intro c h
    cases b with
    | true =>
      cases hd : isSpTab d with
      | true =>
        rw [reSpaceTab_true_pos hd] at h
        rcases ih true h with h1 | h1
        · exact Or.inl (List.mem_cons_of_mem _ h1)
        · exact Or.inr h1
      | false =>
        rw [reSpaceTab_true_neg hd] at h
        rcases List.mem_cons.mp h with h1 | h1
        · exact Or.inl (h1 ▸ List.mem_cons_self _ _)
        · rcases ih false h1 with h2 | h2
          · exact Or.inl (List.mem_cons_of_mem _ h2)
          · exact Or.inr h2
    | false =>
      cases hd : isSpTab d with
      | true =>
        rw [reSpaceTab_false_pos hd] at h
        rcases List.mem_cons.mp h with h1 | h1
        · exact Or.inr h1
        · rcases ih true h1 with h2 | h2
          · exact Or.inl (List.mem_cons_of_mem _ h2)
          · exact Or.inr h2
      | false =>
        rw [reSpaceTab_false_neg hd] at h
        rcases List.mem_cons.mp h with h1 | h1
        · exact Or.inl (h1 ▸ List.mem_cons_self _ _)
        · rcases ih false h1 with h2 | h2
          · exact Or.inl (List.mem_cons_of_mem _ h2)
          · exact Or.inr h2

lemma reSpaceTab_noTab : ∀ (b : Bool) (l : List Char), '\t' ∉ reSpaceTab b l := by
  intro b l
  induction l generalizing b with
  | nil => intro h; cases b <;> simp [reSpaceTab] at h
  | cons d rest ih =>
    intro h
    cases b with
    | true =>
      cases hd : isSpTab d with
      | true =>
        rw [reSpaceTab_true_pos hd] at h
        exact ih true h
      | false =>
        rw [reSpaceTab_true_neg hd] at h
        rcases List.mem_cons.mp h with h1 | h1
        · rw [← h1] at hd
          simp [isSpTab] at hd
        · exact ih false h1
    | false =>
      cases hd : isSpTab d with
      | true =>
        rw [reSpaceTab_false_pos hd] at h
        rcases List.mem_cons.mp h with h1 | h1
        · exact absurd h1 (by decide)
        · exact ih true h1
      | false =>
        rw [reSpaceTab_false_neg hd] at h
        rcases List.mem_cons.mp h with h1 | h1
        · rw [← h1] at hd
          simp [isSpTab] at hd
        · exact ih false h1

lemma reSpaceTab_ok : ∀ (l : List Char),
    List.Chain' NoTwoSpTab (reSpaceTab false l) ∧ List.Chain' NoTwoSpTab (reSpaceTab true l) ∧
      ∀ c, (reSpaceTab true l).head? = some c → isSpTab c = false := by
  intro l
  induction l with
  | nil =>
    refine ⟨List.chain'_nil, List.chain'_nil, ?_⟩
    intro c h
    simp [reSpaceTab] at h
  | cons d rest ih =>
    obtain ⟨ihf, iht, ihh⟩ := ih
    cases hd : isSpTab d with
    | true =>
      refine ⟨?_, ?_, ?_⟩
      · rw [reSpaceTab_false_pos hd, List.chain'_cons']
        refine ⟨fun y hy hc => ?_, iht⟩
        rw [ihh y hy] at hc
        exact absurd hc.2 (by simp)
      · rw [reSpaceTab_true_pos hd]
        exact iht
      · rw [reSpaceTab_true_pos hd]
        exact ihh
    | false =>
      refine ⟨?_, ?_, ?_⟩
      · rw [reSpaceTab_false_neg hd, List.chain'_cons']
        refine ⟨fun y hy hc => ?_, ihf⟩
        rw [hd] at hc
        exact absurd hc.1 (by simp)
      · rw [reSpaceTab_true_neg hd, List.chain'_cons']
        refine ⟨fun y hy hc => ?_, ihf⟩
        rw [hd] at hc
        exact absurd hc.1 (by simp)
      · rw [reSpaceTab_true_neg hd]
        intro c h
        simp only [List.head?_cons, Option.some.injEq] at h
        subst h
        exact hd

lemma reSpaceTab_id : ∀ (l : List Char), '\t' ∉ l → List.Chain' NoTwoSpTab l →
    reSpaceTab false l = l := by
  intro l
  induction l with
  | nil => intro _ _; rfl
  | cons d rest ih =>
    intro ht hc
    have htr : '\t' ∉ rest := fun h => ht (List.mem_cons_of_mem _ h)
    have hcr : List.Chain' NoTwoSpTab rest := List.Chain'.tail hc
    cases hd : isSpTab d with
    | true =>
      have hdsp : d = ' ' := by
        rcases (by simpa [isSpTab, Char.ext_iff] using hd : d = ' ' ∨ d = '\t') with h | h
        · exact h
        · exact absurd (h ▸ List.mem_cons_self d rest) ht
      subst hdsp
      cases rest with
      | nil => simp [reSpaceTab]
      | cons e r2 =>
        have he : isSpTab e = false := by
          rw [List.chain'_cons] at hc
          by_contra hee
          exact hc.1 ⟨by simp [isSpTab], by simpa using hee⟩
        have hrest := ih htr hcr
        rw [reSpaceTab_false_neg he] at hrest
        have hr2 : reSpaceTab false r2 = r2 := List.cons_injective hrest
        rw [reSpaceTab_false_pos hd, reSpaceTab_true_neg he, hr2]
    | false =>
      rw [reSpaceTab_false_neg hd, ih htr hcr]

lemma reHyphenNl_id : ∀ (fuel : ℕ) (l : List Char), '\n' ∉ l → reHyphenNl fuel l = l := by
  intro fuel
  induction fuel with
  | zero => intro l _; rfl
  | succ fuel ih =>
    intro l h
    cases l with
    | nil => rfl
    | cons c rest =>
      have hrest : '\n' ∉ rest := fun hm => h (List.mem_cons_of_mem _ hm)
      by_cases h1 : isWordChar c = true ∧ rest.head? = some '-'
      · have h2 : '\n' ∉ rest.tail.takeWhile isPyWs := by
          intro hm
          exact hrest (List.Sublist.mem (mem_of_takeWhile hm) (List.tail_sublist rest))
        simp only [reHyphenNl, if_pos h1, if_neg h2]
        rw [ih rest hrest]
      · simp only [reHyphenNl, if_neg h1]
        rw [ih rest hrest]

lemma reHyphenSp_id : ∀ (fuel : ℕ) (l : List Char), '-' ∉ l → reHyphenSp fuel l = l := by
  intro fuel
  induction fuel with
  | zero => intro l _; rfl
  | succ fuel ih =>
    intro l h
    cases l with
    | nil => rfl
    | cons c rest =>
      have hrest : '-' ∉ rest := fun hm => h (List.mem_cons_of_mem _ hm)
      have h1 : ¬(isWordChar c = true ∧ rest.head? = some '-') := by
        rintro ⟨-, hh⟩
        exact hrest (mem_of_head? hh)
      simp only [reHyphenSp, if_neg h1]
      rw [ih rest hrest]

lemma reLowerJoin_id : ∀ (fuel : ℕ) (l : List Char), '\n' ∉ l → reLowerJoin fuel l = l := by
  intro fuel
  induction fuel with
  | zero => intro l _; rfl
  | succ fuel ih =>
    intro l h
    cases l with
    | nil => rfl
    | cons c rest =>
      have hrest : '\n' ∉ rest := fun hm => h (List.mem_cons_of_mem _ hm)
      by_cases h1 : c.isLower = true
      · have h2 : '\n' ∉ rest.takeWhile isPyWs := fun hm => hrest (mem_of_takeWhile hm)
        simp only [reLowerJoin, if_pos h1, if_neg h2]
        rw [ih rest hrest]
      · simp only [reLowerJoin, if_neg h1]
        rw [ih rest hrest]

lemma reMultiSpace_id : ∀ (l : List Char), List.Chain' NoTwoSpTab l →
    reMultiSpace false l = l := by
  intro l
  induction l with
  | nil => intro _; rfl
  | cons d rest ih =>
    intro hc
    have hcr := List.Chain'.tail hc
    have hcond : (d = ' ' && rest.head? = some ' ') = false := by
      cases rest with
      | nil => simp
      | cons e r2 =>
        rw [List.chain'_cons] at hc
        by_cases hd : d = ' '
        · by_cases he : e = ' '
          · exact absurd ⟨by simp [isSpTab, hd], by simp [isSpTab, he]⟩ hc.1
          · simp [he]
        · simp [hd]
    simp only [reMultiSpace, hcond, Bool.false_eq_true, if_false]
    rw [ih hcr]

lemma reMultiNl_id : ∀ (l : List Char), '\n' ∉ l → reMultiNl false l = l := by
  intro l
  induction l with
  | nil => intro _; rfl
  | cons d rest ih =>
    intro h
    have hrest : '\n' ∉ rest := fun hm => h (List.mem_cons_of_mem _ hm)
    have hd : d ≠ '\n' := fun hm => h (hm ▸ List.mem_cons_self _ _)
    cases rest with
    | nil => rfl
    | cons e r2 =>
      have hcond : ¬(d = '\n' ∧ e = '\n') := fun hx => hd hx.1
      simp only [reMultiNl, if_neg hcond]
      rw [ih hrest]

/-- On an input without hyphens and newlines, `clean_text` reduces to the
space/tab collapse followed by `strip()`. -/
lemma clean_text_no_hyphen_nl {s : String} (h1 : '-' ∉ s.data) (h2 : '\n' ∉ s.data) :
    clean_text s = String.mk (stripChars (reSpaceTab false s.data)) := by
  have hmem : ∀ c, c ∈ reSpaceTab false s.data → c ∈ s.data ∨ c = ' ' :=
    fun c hc => reSpaceTab_mem false s.data hc
  have hnl : '\n' ∉ reSpaceTab false s.data := by
    intro hm
    rcases hmem _ hm with hin | heq
    · exact h2 hin
    · exact absurd heq (by decide)
  have hhy : '-' ∉ reSpaceTab false s.data := by
    intro hm
    rcases hmem _ hm with hin | heq
    · exact h1 hin
    · exact absurd heq (by decide)
  have hchain : List.Chain' NoTwoSpTab (reSpaceTab false s.data) := (reSpaceTab_ok s.data).1
  show String.mk (stripChars (reMultiNl false (reMultiSpace false (reLowerJoin _ (reHyphenSp _ (reHyphenNl _ (reSpaceTab false s.data))))))) = _
  rw [reHyphenNl_id _ _ hnl, reHyphenSp_id _ _ hhy, reLowerJoin_id _ _ hnl,
    reMultiSpace_id _ hchain, reMultiNl_id _ hnl]


/-- **C3, counterexample.**  Text normalization is *not* idempotent:
`clean_text "a- b- c" = "ab- c"`, but a second application gives `"abc"`.
The space-hyphen substitution consumes the continuation character of a
repaired word, so a new `"b- c"` pattern that the first pass skipped is
repaired only by the second pass. -/
theorem c3_counterexample :
    clean_text c3Input = "ab- c" ∧ clean_text (clean_text c3Input) = "abc" ∧
      clean_text (clean_text c3Input) ≠ clean_text c3Input := by
  refine ⟨by decide, by decide, by decide⟩

/-- **C3, amended.**  `clean_text` is idempotent on every string containing
neither a hyphen nor a newline character (the two word-repair substitutions
and the newline collapse are then inert, and the whitespace collapse plus
`strip` are idempotent). -/
theorem c3_clean_text_idempotent_restricted (s : String)
    (h1 : '-' ∉ s.data) (h2 : '\n' ∉ s.data) :
    clean_text (clean_text s) = clean_text s := by
  rw [clean_text_no_hyphen_nl h1 h2]
  set t := stripChars (reSpaceTab false s.data) with ht
  have hmem : ∀ c, c ∈ t → c ∈ s.data ∨ c = ' ' := by
    intro c hc
    exact reSpaceTab_mem false s.data (stripChars_mem hc)
  have hnl : '\n' ∉ t := by
    intro hm
    rcases hmem _ hm with hin | heq
    · exact h2 hin
    · exact absurd heq (by decide)
  have hhy : '-' ∉ t := by
    intro hm
    rcases hmem _ hm with hin | heq
    · exact h1 hin
    · exact absurd heq (by decide)
  have htab : '\t' ∉ t := fun hm => reSpaceTab_noTab false s.data (stripChars_mem hm)
  have hchain : List.Chain' NoTwoSpTab t :=
    stripChars_chain noTwoSpTab_symm (reSpaceTab_ok s.data).1
  have hdata : (String.mk t).data = t := rfl
  have hstep : reSpaceTab false (String.mk t).data = t := by
    rw [hdata]
    exact reSpaceTab_id t htab hchain
  have := clean_text_no_hyphen_nl (s := String.mk t) (hdata ▸ hhy) (hdata ▸ hnl)
  rw [this, hstep, ht, stripChars_idem]

/-- **C3 witness.** -/
theorem c3_clean_text_idempotent_restricted_witness :
    clean_text (clean_text "  hello \t  world  ") = clean_text "  hello \t  world  " :=
  c3_clean_text_idempotent_restricted "  hello \t  world  " (by decide) (by decide)

/-- **C8.**  Normalization repairs hyphenated line-break word splits:
`clean_text "Play-\ning" = "Playing"` (newline form, repaired by the
`(\w)-\s*\n\s*(\w)` substitution) and `clean_text "dun- geon" = "dungeon"`
(space form, repaired by the `(\w)-\s+(\w)` substitution). -/
theorem c8_hyphenation_repair :
    clean_text "Play-\ning" = "Playing" ∧ clean_text "dun- geon" = "dungeon" := by
  refine ⟨by decide, by decide⟩


/-- **C4.**  `detect_heading` returns true exactly on the spec's two rules;
in particular `"INTRODUCTION"` is a heading and `"Item price: $5,"` is not,
even though it is short and followed by a blank line. -/
theorem c4_detect_heading_spec :
    (∀ (line : String) (next : Option String),
      detect_heading line next = true ↔ specHeadingCond line next) ∧
    detect_heading "INTRODUCTION" none = true ∧
    detect_heading "Item price: $5," (some "") = false := by
  refine ⟨?_, by decide, by decide⟩
  intro line next
  unfold detect_heading specHeadingCond
  rcases next with _ | nl
  · rcases hdata : (pyStrip line).data with _ | ⟨c, rest⟩ <;>
      simp only [hdata, List.isEmpty_cons, List.isEmpty_nil, Bool.false_eq_true, if_false,
        if_true, List.length_cons, List.length_nil, ge_iff_le, Bool.and_eq_true,
        Bool.not_eq_true', decide_eq_true_eq]
    · simp
    · split_ifs with h1 h2 <;> simp_all
  · rcases hdata : (pyStrip line).data with _ | ⟨c, rest⟩ <;>
      simp only [hdata, List.isEmpty_cons, List.isEmpty_nil, Bool.false_eq_true, if_false,
        if_true, List.length_cons, List.length_nil, ge_iff_le, Bool.and_eq_true,
        Bool.not_eq_true', decide_eq_true_eq, List.isEmpty_iff]
    · simp
    · split_ifs with h1 h2 h3 <;> simp_all
      constructor
      · rintro ⟨hu, ⟨hc1, hc2⟩, hc3⟩
        exact Or.inr ⟨hu, hc1, hc2, hc3⟩
      · rintro (⟨hlen, hU, hP⟩ | ⟨hu, hc1, hc2, hc3⟩)
        · rw [h1 hlen hU] at hP
          exact Bool.noConfusion hP
        · exact ⟨hu, ⟨hc1, hc2⟩, hc3⟩

lemma isNumberedStart_head {l : List Char} (h : isNumberedStart l = true) :
    ∃ d r, l = d :: r ∧ d.isDigit = true := by
  cases l with
  | nil => simp [isNumberedStart, List.dropWhile_nil] at h
  | cons d r =>
    refine ⟨d, r, rfl, ?_⟩
    by_contra hd
    have hd' : d.isDigit = false := by simpa using hd
    cases r with
    | nil => simp [isNumberedStart, List.dropWhile_cons, hd'] at h
    | cons w r2 =>
      simp [isNumberedStart, List.dropWhile_cons, List.takeWhile_cons, hd'] at h

/-- **C10.**  In `format_line_as_markdown`, bullet and numbered-list
formatting takes precedence over heading formatting: on a list-item line the
heading flag is ignored (the result is the same as with `is_heading=false`),
the result never starts with `'#'`, and a bullet line is normalized to
`"- "`. -/
theorem c10_list_over_heading (line : String) (level : ℕ)
    (h : is_list_item line = true) :
    format_line_as_markdown line true level = format_line_as_markdown line false level ∧
      (format_line_as_markdown line true level).data.head? ≠ some '#' ∧
      (isBulletStart (pyStrip line).data = true →
        (format_line_as_markdown line true level).data =
          '-' :: ' ' :: ((pyStrip line).data.tail.dropWhile isPyWs)) := by
  simp only [is_list_item] at h
  by_cases hemp : (pyStrip line).data.isEmpty
  · rw [if_pos hemp] at h
    exact Bool.noConfusion h
  · rw [if_neg hemp] at h
    simp only [format_line_as_markdown]
    rw [if_neg hemp, if_neg hemp]
    by_cases hb : isBulletStart (pyStrip line).data = true
    · rw [if_pos hb, if_pos hb]
      exact ⟨rfl, by simp, fun _ => rfl⟩
    · have hn : isNumberedStart (pyStrip line).data = true := by
        rw [Bool.or_eq_true] at h
        rcases h with h | h
        · exact absurd h hb
        · exact h
      rw [if_neg hb, if_neg hb, if_pos hn, if_pos hn]
      obtain ⟨d, r, hdr, hdig⟩ := isNumberedStart_head hn
      refine ⟨rfl, ?_, fun hbb => absurd hbb hb⟩
      rw [hdr]
      simp only [List.head?_cons, ne_eq, Option.some.injEq]
      intro heq
      rw [heq] at hdig
      exact absurd hdig (by decide)

/-- **C10 witness.** -/
theorem c10_list_over_heading_witness :
    format_line_as_markdown "- hello" true 3 = format_line_as_markdown "- hello" false 3 ∧
      (format_line_as_markdown "- hello" true 3).data.head? ≠ some '#' :=
  ⟨(c10_list_over_heading "- hello" 3 (by decide)).1,
    (c10_list_over_heading "- hello" 3 (by decide)).2.1⟩

/-- **C7.**  While the classifier is in the `InList` state (list buffer
non-empty), a line that survives the boilerplate filters and is non-blank,
not a heading and not a list item is appended to the text of the most recent
buffered list item, separated by a single space — content and paragraph
buffer are untouched, so no new paragraph is started.  In particular the
lines `["- First item", "  continues here", ""]` produce exactly one list
item `"- First item continues here"`. -/
theorem c7_list_continuation :
    (∀ (ff pf : Bool) (footers : List String) (st : LoopState) (rawLine : String)
        (next : Option String),
      st.inList = true → st.listBuf ≠ [] →
      pyStrip rawLine ≠ "" →
      ¬(ff = true ∧ pyStrip rawLine ∈ footers) →
      ¬(ff = true ∧ isPageNumberLine (pyStrip rawLine) = true) →
      (if pf then detect_heading (pyStrip rawLine) next else false) = false →
      is_list_item (pyStrip rawLine) = false →
      stepLine ff pf footers st rawLine next =
        { st with listBuf := appendToLast (" " ++ pyStrip rawLine) st.listBuf }) ∧
    processLoop true true [] initState ["- First item", "  continues here", ""] =
      ⟨["- First item continues here\n", "\n"], [], false, []⟩ := by
  refine ⟨?_, by decide⟩
  intro ff pf footers st rawLine next hin hbuf hline h1 h2 hH hNotList
  simp [stepLine, h1, h2, hH, hNotList, hin, hline, List.isEmpty_iff, hbuf]

/-- **C7 witness.** -/
theorem c7_list_continuation_witness :
    stepLine true true [] ⟨[], [], true, ["- First item"]⟩ "  continues here" (some "") =
      ⟨[], [], true, ["- First item continues here"]⟩ :=
  (c7_list_continuation.1 true true [] ⟨[], [], true, ["- First item"]⟩ "  continues here"
    (some "") rfl (by decide) (by decide) (by decide) (by decide) (by decide)
    (by decide)).trans (by decide)

/-- **C5.**  The boilerplate set contains a line iff it occurs more than
twice among the trimmed non-empty lines sampled from the last three raw
lines of each page of the range and is under 100 characters; any line whose
stripped form is in the set is skipped outright by the classifier loop
(state unchanged: nothing buffered, nothing rendered); and concretely a
line `"Confidential"` trailing on only 2 of 5 pages is not in the set and
survives into the rendered output. -/
theorem c5_boilerplate :
    (∀ (pages : List PdfPage) (s e : ℕ) (line : String),
      line ∈ commonFooters pages s e ↔
        2 < (sampledLines pages s e).count line ∧ line.data.length < 100) ∧
    (∀ (pf : Bool) (footers : List String) (st : LoopState) (rawLine : String)
        (next : Option String), pyStrip rawLine ∈ footers →
      stepLine true pf footers st rawLine next = st) ∧
    commonFooters c5Doc 1 5 = [] ∧
    0 < pyCount "Confidential"
        ((pdfplumberFallback c5Doc 1 5 defaultOptions).toOption.getD "") := by
  refine ⟨?_, ?_, by decide, by decide⟩
  · intro pages s e line
    simp only [commonFooters, List.mem_filter, List.mem_dedup, decide_eq_true_eq]
    constructor
    · rintro ⟨-, h2, h3⟩
      exact ⟨h2, h3⟩
    · rintro ⟨h2, h3⟩
      refine ⟨?_, h2, h3⟩
      exact List.count_pos_iff.mp (Nat.lt_of_lt_of_le (by norm_num) (Nat.le_of_lt h2))
  · intro pf footers st rawLine next hmem
    simp [stepLine, hmem]

/-- **C5 witness.** -/
theorem c5_boilerplate_witness :
    stepLine true true ["Confidential"] initState "Confidential" none = initState :=
  c5_boilerplate.2.1 true ["Confidential"] initState "Confidential" none (by decide)

section SortLemmas

variable {α : Type} {le : α → α → Bool} {x : α}

lemma insertSorted_perm : ∀ (l : List α), List.Perm (insertSorted le x l) (x :: l) := by
  intro l
  induction l with
  | nil => exact List.Perm.refl _
  | cons y ys ih =>
    simp only [insertSorted]
    split
    · exact List.Perm.refl _
    · exact (List.Perm.cons y ih).trans (List.Perm.swap x y ys)

lemma isort_perm : ∀ (l : List α), List.Perm (isort le l) l := by
  intro l
  induction l with
  | nil => exact List.Perm.refl _
  | cons y ys ih =>
    simp only [isort]
    exact (insertSorted_perm _).trans (List.Perm.cons y ih)

lemma insertSorted_pairwise
    (htrans : ∀ a b c, le a b = true → le b c = true → le a c = true)
    (htot : ∀ a b, le a b = true ∨ le b a = true) :
    ∀ (l : List α), List.Pairwise (fun a b => le a b = true) l →
      List.Pairwise (fun a b => le a b = true) (insertSorted le x l) := by
  intro l
  induction l with
  | nil => intro _; simp [insertSorted]
  | cons y ys ih =>
    intro h
    rw [List.pairwise_cons] at h
    obtain ⟨hy, hys⟩ := h
    simp only [insertSorted]
    cases hxy : le x y with
    | true =>
      rw [if_pos rfl]
      rw [List.pairwise_cons]
      refine ⟨?_, List.pairwise_cons.mpr ⟨hy, hys⟩⟩
      intro z hz
      rcases List.mem_cons.mp hz with h1 | h1
      · rw [h1]; exact hxy
      · exact htrans x y z hxy (hy z h1)
    | false =>
      rw [if_neg (by simp)]
      rw [List.pairwise_cons]
      refine ⟨?_, ih hys⟩
      intro z hz
      rcases List.mem_cons.mp ((List.Perm.mem_iff (insertSorted_perm ys)).mp hz) with h1 | h1
      · rw [h1]
        rcases htot x y with h2 | h2
        · rw [h2] at hxy; exact Bool.noConfusion hxy
        · exact h2
      · exact hy z h1

lemma isort_pairwise
    (htrans : ∀ a b c, le a b = true → le b c = true → le a c = true)
    (htot : ∀ a b, le a b = true ∨ le b a = true) :
    ∀ (l : List α), List.Pairwise (fun a b => le a b = true) (isort le l) := by
  intro l
  induction l with
  | nil => simp [isort]
  | cons y ys ih =>
    simp only [isort]
    exact insertSorted_pairwise htrans htot _ ih

lemma isort_eq_self : ∀ (l : List α), List.Chain' (fun a b => le a b = true) l →
    isort le l = l := by
  intro l
  induction l with
  | nil => intro _; rfl
  | cons y ys ih =>
    intro h
    rw [List.chain'_cons'] at h
    obtain ⟨hy, hys⟩ := h
    simp only [isort]
    rw [ih hys]
    cases ys with
    | nil => rfl
    | cons z zs =>
      simp only [insertSorted]
      rw [if_pos (hy z rfl)]

end SortLemmas

lemma wordLe_trans : ∀ a b c : Word, wordLe a b = true → wordLe b c = true →
    wordLe a c = true := by
  intro a b c hab hbc
  simp only [wordLe, decide_eq_true_eq] at hab hbc ⊢
  rcases hab with h | ⟨h1, h2⟩ <;> rcases hbc with h' | ⟨h1', h2'⟩
  · exact Or.inl (lt_trans h h')
  · exact Or.inl (h1' ▸ h)
  · exact Or.inl (h1 ▸ h')
  · exact Or.inr ⟨h1.trans h1', le_trans h2 h2'⟩

lemma wordLe_total : ∀ a b : Word, wordLe a b = true ∨ wordLe b a = true := by
  intro a b
  simp only [wordLe, decide_eq_true_eq]
  rcases lt_trichotomy a.top b.top with h | h | h
  · exact Or.inl (Or.inl h)
  · rcases le_total a.x0 b.x0 with h2 | h2
    · exact Or.inl (Or.inr ⟨h, h2⟩)
    · exact Or.inr (Or.inr ⟨h.symm, h2⟩)
  · exact Or.inr (Or.inl h)

lemma groupLoop_pairwise :
    ∀ (ws : List Word) (first : Word) (restW : List Word),
      (∀ w ∈ ws, first.top ≤ w.top) →
      List.Pairwise (fun a b : Word => a.top ≤ b.top) ws →
      List.Pairwise (fun p q : ℚ × String => p.1 < q.1) (groupLoop first restW ws) ∧
        ∀ p ∈ groupLoop first restW ws, first.top ≤ p.1 := by
  intro ws
  induction ws with
  | nil =>
    intro first restW _ _
    constructor
    · simp [groupLoop]
    · intro p hp
      simp only [groupLoop, List.mem_singleton] at hp
      rw [hp]
  | cons w ws ih =>
    intro first restW hge hpw
    rw [List.pairwise_cons] at hpw
    obtain ⟨hw, hws⟩ := hpw
    by_cases htol : |w.top - first.top| ≤ 5
    · simp only [groupLoop, if_pos htol]
      exact ih first (restW ++ [w]) (fun v hv => hge v (List.mem_cons_of_mem _ hv)) hws
    · simp only [groupLoop, if_neg htol]
      have h1 : first.top ≤ w.top := hge w (List.mem_cons_self _ _)
      have hwtop : first.top < w.top := by
        rcases lt_or_eq_of_le h1 with hlt | heq
        · exact hlt
        · exfalso
          apply htol
          rw [← heq, sub_self, abs_zero]
          norm_num
      obtain ⟨ihp, ihge⟩ := ih w [] hw hws
      constructor
      · rw [List.pairwise_cons]
        refine ⟨fun q hq => lt_of_lt_of_le hwtop (ihge q hq), ihp⟩
      · intro p hp
        rcases List.mem_cons.mp hp with h | h
        · rw [h]
        · exact le_trans (le_of_lt hwtop) (ihge p h)

lemma groupWords_pairwise (ws : List Word)
    (h : List.Pairwise (fun a b : Word => a.top ≤ b.top) ws) :
    List.Pairwise (fun p q : ℚ × String => p.1 < q.1) (groupWords ws) := by
  cases ws with
  | nil => simp [groupWords]
  | cons w rest =>
    rw [List.pairwise_cons] at h
    exact (groupLoop_pairwise rest w [] h.1 h.2).1

lemma columnWords_top_pairwise (ws : List Word) (bs : List (ℚ × ℚ × ℕ)) (ci : ℕ) :
    List.Pairwise (fun a b : Word => a.top ≤ b.top) (columnWords ws bs ci) := by
  have h := isort_pairwise wordLe_trans wordLe_total
    (ws.filter (fun w => assignColumn bs w = ci))
  refine List.Pairwise.imp ?_ h
  intro a b hab
  simp only [wordLe, decide_eq_true_eq] at hab
  rcases hab with h1 | ⟨h1, -⟩
  · exact le_of_lt h1
  · exact le_of_eq h1

lemma columnLines_pairwise (ws : List Word) (width : ℚ) (ci : ℕ) :
    List.Pairwise (fun p q : ℚ × String => p.1 < q.1) (columnLines ws width ci) := by
  have hg := groupWords_pairwise _ (columnWords_top_pairwise ws (columnBoundaries ws width) ci)
  have heq : columnLines ws width ci =
      groupWords (columnWords ws (columnBoundaries ws width) ci) := by
    apply isort_eq_self
    apply List.Pairwise.chain'
    refine List.Pairwise.imp ?_ hg
    intro p q hpq
    simp only [lineLe, decide_eq_true_eq]
    exact le_of_lt hpq
  rw [heq]
  exact hg

lemma columnBoundaries_length (ws : List Word) (width : ℚ) :
    (columnBoundaries ws width).length = 1 ∨ (columnBoundaries ws width).length = 2 := by
  unfold columnBoundaries
  cases gapsOf ws width with
  | nil => exact Or.inl rfl
  | cons g gs => exact Or.inr rfl

/-- **C6.**  In the line sequence produced by `extract_text_with_layout`,
lines are strictly ordered: within one column by ascending top coordinate,
and every line of column `i` precedes every line of column `i+1`; in
particular two same-top tokens separated by a 60-unit gap centered at 50% of
a width-100 page land in columns 0 and 1, the left one's line first. -/
theorem c6_layout_order :
    (∀ (ws : List Word) (width : ℚ),
      List.Pairwise lineOrder (layoutLines ws width)) ∧
    layoutLines [⟨"A", 10, 20, 0⟩, ⟨"B", 80, 90, 0⟩] 100 =
      [(0, 0, "A"), (1, 0, "B")] := by
  constructor
  · intro ws width
    have hcol : ∀ ci : ℕ, List.Pairwise lineOrder
        ((columnLines ws width ci).map (fun p => (ci, p.1, p.2))) := by
      intro ci
      rw [List.pairwise_map]
      refine List.Pairwise.imp ?_ (columnLines_pairwise ws width ci)
      intro p q hpq
      exact Or.inr ⟨rfl, hpq⟩
    have hcross : ∀ (a b : ℕ × ℚ × String) (ci cj : ℕ), ci < cj →
        a ∈ (columnLines ws width ci).map (fun p => (ci, p.1, p.2)) →
        b ∈ (columnLines ws width cj).map (fun p => (cj, p.1, p.2)) →
        lineOrder a b := by
      intro a b ci cj hij ha hb
      rcases List.mem_map.mp ha with ⟨p, -, hp⟩
      rcases List.mem_map.mp hb with ⟨q, -, hq⟩
      rw [← hp, ← hq]
      exact Or.inl hij
    unfold layoutLines
    rcases columnBoundaries_length ws width with hlen | hlen <;> rw [hlen]
    · simpa [List.range_succ, List.flatMap_cons, List.flatMap_nil] using hcol 0
    · have : List.range 2 = [0, 1] := by decide
      rw [this]
      simp only [List.flatMap_cons, List.flatMap_nil, List.append_nil]
      rw [List.pairwise_append]
      exact ⟨hcol 0, hcol 1, fun a ha b hb => hcross a b 0 1 (by norm_num) ha hb⟩
  · norm_num [layoutLines, columnBoundaries, gapsOf, xPositions, ratTrunc, List.dedup,
      isort, insertSorted, consecPairs, List.filterMap, lexMaxGap, columnLines, columnWords,
      assignColumn, wordCenter, List.find?, List.filter, groupWords, groupLoop, wordLe,
      lineLe, List.range_succ, List.flatMap, pyJoin, lexMinDist]

/-- **C2, counterexample.**  Range validation does not apply to every
backend: with Marker unavailable and PyMuPDF enabled and available, the
request `start_page=5, end_page=3` on a 10-page document succeeds with empty
output (PyMuPDF's `range(4, 3)` is empty) instead of failing with an
InvalidRange error. -/
theorem c2_counterexample :
    extract_text_to_markdown
      ⟨List.replicate 10 ⟨"x", "x"⟩, List.replicate 10 ["x"]⟩
      ⟨false, true, false, Except.error "", true, Except.error ""⟩
      5 3 { defaultOptions with use_pymupdf := true } = Except.ok "" := rfl

/-- **C2, amended.**  The pdfplumber fallback path — the only place the
range check lives — rejects every request whose range violates
`1 ≤ start ≤ end ≤ total_pages` with the wrapped invalid-range error and
produces no output. -/
theorem c2_invalid_range_rejected (pages : List PdfPage) (s e : ℕ)
    (opts : ExtractOptions) (h : ¬(1 ≤ s ∧ s ≤ e ∧ e ≤ pages.length)) :
    pdfplumberFallback pages s e opts = Except.error (invalidRangeMsg pages.length) := by
  simp only [pdfplumberFallback]
  split
  · rfl
  · next hcond =>
    exfalso
    simp only [Bool.or_eq_true, decide_eq_true_eq, not_or] at hcond
    omega

/-- **C2 witness.** -/
theorem c2_invalid_range_rejected_witness :
    pdfplumberFallback (List.replicate 10 ⟨"x", "x"⟩) 5 3 defaultOptions =
      Except.error "Error extracting PDF: Invalid page range. PDF has 10 pages." :=
  (c2_invalid_range_rejected (List.replicate 10 ⟨"x", "x"⟩) 5 3 defaultOptions
    (by decide)).trans (by rfl)

lemma string_data_append (a b : String) : (a ++ b).data = a.data ++ b.data := by
  cases a
  cases b
  rfl

lemma string_append_assoc (a b c : String) : a ++ b ++ c = a ++ (b ++ c) := by
  cases a
  cases b
  cases c
  show String.mk _ = String.mk _
  rw [List.append_assoc]

lemma string_ne_empty_iff (s : String) : s ≠ "" ↔ s.data ≠ [] :=
  not_congr String.ext_iff

lemma data_append_head (a b : String) (h : a.data ≠ []) :
    (a ++ b).data.head? = a.data.head? := by
  rw [string_data_append]
  cases hd : a.data with
  | nil => exact absurd hd h
  | cons c r => simp

lemma pyStrip_idem (s : String) : pyStrip (pyStrip s) = pyStrip s := by
  show String.mk (stripChars (stripChars s.data)) = String.mk (stripChars s.data)
  rw [stripChars_idem]

lemma entryShape_of_stripped (s : String) (h : pyStrip s ≠ "") : EntryShape (pyStrip s) := by
  have hd : (pyStrip s).data ≠ [] := (string_ne_empty_iff _).mp h
  refine ⟨hd, ?_⟩
  intro heq
  have := stripChars_head (l := s.data) (c := '\n') heq
  simp [isPyWs] at this

lemma entryShape_append (x suf : String) (h : EntryShape x) : EntryShape (x ++ suf) := by
  obtain ⟨hne, hh⟩ := h
  refine ⟨?_, ?_⟩
  · rw [string_data_append]
    simp [hne]
  · rw [data_append_head _ _ hne]
    exact hh

lemma format_entryShape (line : String) (b : Bool) (lvl : ℕ)
    (h : (pyStrip line).data ≠ []) :
    EntryShape (format_line_as_markdown line b lvl) := by
  have hstr : EntryShape (pyStrip line) :=
    entryShape_of_stripped line ((string_ne_empty_iff _).mpr h)
  simp only [format_line_as_markdown]
  rw [if_neg (by simp [h, List.isEmpty_iff])]
  by_cases hb : isBulletStart (pyStrip line).data = true
  · rw [if_pos hb]
    exact ⟨by simp, by simp⟩
  · rw [if_neg hb]
    by_cases hn : isNumberedStart (pyStrip line).data = true
    · rw [if_pos hn]
      exact hstr
    · rw [if_neg hn]
      cases b with
      | false => exact hstr
      | true =>
        rw [if_pos rfl]
        cases lvl with
        | zero =>
          refine ⟨?_, ?_⟩
          · rw [string_data_append]
            simp
          · rw [string_data_append, string_data_append]
            simp [List.replicate]
        | succ k =>
          refine ⟨?_, ?_⟩
          · rw [string_data_append]
            simp
          · rw [string_data_append, string_data_append]
            simp [List.replicate]

lemma pyJoin_entryShape : ∀ (xs : List String), xs ≠ [] → (∀ x ∈ xs, EntryShape x) →
    EntryShape (pyJoin " " xs) := by
  intro xs
  induction xs with
  | nil => intro h _; exact absurd rfl h
  | cons x rest ih =>
    intro _ hq
    cases rest with
    | nil => exact hq x (List.mem_cons_self _ _)
    | cons y ys =>
      have hx := hq x (List.mem_cons_self _ _)
      show EntryShape (x ++ " " ++ pyJoin " " (y :: ys))
      rw [string_append_assoc]
      exact entryShape_append _ _ hx

lemma appendToLast_entryShape (suf : String) :
    ∀ (xs : List String), (∀ x ∈ xs, EntryShape x) →
      ∀ x ∈ appendToLast suf xs, EntryShape x := by
  intro xs
  induction xs with
  | nil => intro _ x hx; simp [appendToLast] at hx
  | cons a rest ih =>
    intro hq x hx
    cases rest with
    | nil =>
      simp only [appendToLast, List.mem_singleton] at hx
      rw [hx]
      exact entryShape_append _ _ (hq a (List.mem_cons_self _ _))
    | cons b r2 =>
      simp only [appendToLast] at hx
      rcases List.mem_cons.mp hx with h1 | h1
      · rw [h1]
        exact hq a (List.mem_cons_self _ _)
      · exact ih (fun z hz => hq z (List.mem_cons_of_mem _ hz)) x h1

lemma chunkShape_entry_nl (x : String) (h : EntryShape x) : ChunkShape (x ++ "\n") :=
  ⟨⟨x, rfl⟩, Or.inr (entryShape_append _ _ h)⟩

lemma chunkShape_entry_nlnl (x : String) (h : EntryShape x) : ChunkShape (x ++ "\n\n") := by
  refine ⟨⟨x ++ "\n", ?_⟩, Or.inr (entryShape_append _ _ h)⟩
  rw [string_append_assoc]
  rfl

lemma chunkShape_nl : ChunkShape "\n" :=
  ⟨⟨"", rfl⟩, Or.inl rfl⟩

lemma flushListBuf_inv (st : LoopState)
    (hc : ∀ c ∈ st.content, ChunkShape c)
    (hp : ∀ x ∈ st.parBuf, EntryShape x)
    (hl : ∀ x ∈ st.listBuf, EntryShape x) :
    (∀ c ∈ (flushListBuf st).content, ChunkShape c) ∧
      (∀ x ∈ (flushListBuf st).parBuf, EntryShape x) ∧
      (∀ x ∈ (flushListBuf st).listBuf, EntryShape x) := by
  refine ⟨?_, hp, by simp [flushListBuf]⟩
  intro c hcm
  simp only [flushListBuf] at hcm
  rcases List.mem_append.mp hcm with h1 | h1
  · rcases List.mem_append.mp h1 with h2 | h2
    · exact hc c h2
    · rcases List.mem_map.mp h2 with ⟨x, hx, hxe⟩
      rw [← hxe]
      exact chunkShape_entry_nl x (hl x hx)
  · rw [List.mem_singleton.mp h1]
    exact chunkShape_nl

lemma flushParBuf_inv (st : LoopState)
    (hc : ∀ c ∈ st.content, ChunkShape c)
    (hp : ∀ x ∈ st.parBuf, EntryShape x)
    (hl : ∀ x ∈ st.listBuf, EntryShape x)
    (hne : st.parBuf ≠ []) :
    (∀ c ∈ (flushParBuf st).content, ChunkShape c) ∧
      (∀ x ∈ (flushParBuf st).parBuf, EntryShape x) ∧
      (∀ x ∈ (flushParBuf st).listBuf, EntryShape x) := by
  refine ⟨?_, by simp [flushParBuf], hl⟩
  intro c hcm
  simp only [flushParBuf] at hcm
  rcases List.mem_append.mp hcm with h1 | h1
  · exact hc c h1
  · rw [List.mem_singleton.mp h1]
    exact chunkShape_entry_nlnl _ (pyJoin_entryShape st.parBuf hne hp)

lemma stepLine_inv (ff pf : Bool) (footers : List String) (st : LoopState)
    (l : String) (next : Option String)
    (hc : ∀ c ∈ st.content, ChunkShape c)
    (hp : ∀ x ∈ st.parBuf, EntryShape x)
    (hl : ∀ x ∈ st.listBuf, EntryShape x) :
    (∀ c ∈ (stepLine ff pf footers st l next).content, ChunkShape c) ∧
      (∀ x ∈ (stepLine ff pf footers st l next).parBuf, EntryShape x) ∧
      (∀ x ∈ (stepLine ff pf footers st l next).listBuf, EntryShape x) := by
  simp only [stepLine]
  by_cases h1 : (ff && footers.contains (pyStrip l)) = true
  · rw [if_pos h1]
    exact ⟨hc, hp, hl⟩
  · rw [if_neg h1]
    by_cases h2 : (ff && isPageNumberLine (pyStrip l)) = true
    · rw [if_pos h2]
      exact ⟨hc, hp, hl⟩
    · rw [if_neg h2]
      by_cases h3 : pyStrip l = ""
      · rw [if_pos h3]
        by_cases h4 : (st.inList && !st.listBuf.isEmpty) = true
        · rw [if_pos h4]
          exact flushListBuf_inv st hc hp hl
        · rw [if_neg h4]
          by_cases h5 : (!st.parBuf.isEmpty) = true
          · rw [if_pos h5]
            exact flushParBuf_inv st hc hp hl (by simpa [List.isEmpty_iff] using h5)
          · rw [if_neg h5]
            exact ⟨hc, hp, hl⟩
      · rw [if_neg h3]
        have hldata : (pyStrip l).data ≠ [] := (string_ne_empty_iff _).mp h3
        have hfmt : ∀ (b : Bool) (lvl : ℕ),
            EntryShape (format_line_as_markdown (pyStrip l) b lvl) := by
          intro b lvl
          refine format_entryShape (pyStrip l) b lvl ?_
          rw [pyStrip_idem]
          exact hldata
        by_cases hH : (if pf = true then detect_heading (pyStrip l) next else false) = true
        · rw [if_pos hH]
          have s1 : (∀ c ∈ (if st.inList && !st.listBuf.isEmpty then flushListBuf st else st).content, ChunkShape c) ∧
              (∀ x ∈ (if st.inList && !st.listBuf.isEmpty then flushListBuf st else st).parBuf, EntryShape x) ∧
              (∀ x ∈ (if st.inList && !st.listBuf.isEmpty then flushListBuf st else st).listBuf, EntryShape x) := by
            split
            · exact flushListBuf_inv st hc hp hl
            · exact ⟨hc, hp, hl⟩
          set st1 := if st.inList && !st.listBuf.isEmpty then flushListBuf st else st with hst1
          have s2 : (∀ c ∈ (if !st1.parBuf.isEmpty then flushParBuf st1 else st1).content, ChunkShape c) ∧
              (∀ x ∈ (if !st1.parBuf.isEmpty then flushParBuf st1 else st1).parBuf, EntryShape x) ∧
              (∀ x ∈ (if !st1.parBuf.isEmpty then flushParBuf st1 else st1).listBuf, EntryShape x) := by
            split
            · next hpe =>
              exact flushParBuf_inv st1 s1.1 s1.2.1 s1.2.2 (by simpa [List.isEmpty_iff] using hpe)
            · exact s1
          set st2 := if !st1.parBuf.isEmpty then flushParBuf st1 else st1 with hst2
          refine ⟨?_, s2.2.1, s2.2.2⟩
          intro c hcm
          simp only at hcm
          rcases List.mem_append.mp hcm with hmem | hmem
          · exact s2.1 c hmem
          · rw [List.mem_singleton.mp hmem]
            exact chunkShape_entry_nlnl _ (hfmt true 3)
        · rw [if_neg hH]
          by_cases hLi : is_list_item (pyStrip l) = true
          · rw [if_pos hLi]
            have s1 : (∀ c ∈ (if !st.parBuf.isEmpty then flushParBuf st else st).content, ChunkShape c) ∧
                (∀ x ∈ (if !st.parBuf.isEmpty then flushParBuf st else st).parBuf, EntryShape x) ∧
                (∀ x ∈ (if !st.parBuf.isEmpty then flushParBuf st else st).listBuf, EntryShape x) := by
              split
              · next hpe =>
                exact flushParBuf_inv st hc hp hl (by simpa [List.isEmpty_iff] using hpe)
              · exact ⟨hc, hp, hl⟩
            refine ⟨s1.1, s1.2.1, ?_⟩
            intro x hx
            simp only at hx
            rcases List.mem_append.mp hx with hmem | hmem
            · exact s1.2.2 x hmem
            · rw [List.mem_singleton.mp hmem]
              exact hfmt false 3
          · rw [if_neg hLi]
            by_cases hIn : st.inList = true
            · rw [if_pos hIn]
              by_cases hB : (!st.listBuf.isEmpty && !(if pf = true then detect_heading (pyStrip l) next else false)) = true
              · rw [if_pos hB]
                exact ⟨hc, hp, appendToLast_entryShape _ st.listBuf hl⟩
              · rw [if_neg hB]
                have hf := flushListBuf_inv st hc hp hl
                refine ⟨hf.1, ?_, hf.2.2⟩
                intro x hx
                rcases List.mem_append.mp hx with hmem | hmem
                · exact hf.2.1 x hmem
                · rw [List.mem_singleton.mp hmem]
                  exact entryShape_of_stripped l h3
            · rw [if_neg hIn]
              refine ⟨hc, ?_, hl⟩
              intro x hx
              rcases List.mem_append.mp hx with hmem | hmem
              · exact hp x hmem
              · rw [List.mem_singleton.mp hmem]
                exact entryShape_of_stripped l h3

lemma processLoop_inv (ff pf : Bool) (footers : List String) :
    ∀ (ls : List String) (st : LoopState),
      (∀ c ∈ st.content, ChunkShape c) →
      (∀ x ∈ st.parBuf, EntryShape x) →
      (∀ x ∈ st.listBuf, EntryShape x) →
      (∀ c ∈ (processLoop ff pf footers st ls).content, ChunkShape c) ∧
        (∀ x ∈ (processLoop ff pf footers st ls).parBuf, EntryShape x) ∧
        (∀ x ∈ (processLoop ff pf footers st ls).listBuf, EntryShape x) := by
  intro ls
  induction ls with
  | nil => intro st hc hp hl; exact ⟨hc, hp, hl⟩
  | cons l rest ih =>
    intro st hc hp hl
    have h := stepLine_inv ff pf footers st l (rest.head?.map pyStrip) hc hp hl
    exact ih _ h.1 h.2.1 h.2.2

lemma endFlush_inv (st : LoopState)
    (hc : ∀ c ∈ st.content, ChunkShape c)
    (hp : ∀ x ∈ st.parBuf, EntryShape x)
    (hl : ∀ x ∈ st.listBuf, EntryShape x) :
    ∀ c ∈ (endFlush st).content, ChunkShape c := by
  simp only [endFlush]
  have s1 : (∀ c ∈ (if st.inList && !st.listBuf.isEmpty then flushListBuf st else st).content, ChunkShape c) ∧
      (∀ x ∈ (if st.inList && !st.listBuf.isEmpty then flushListBuf st else st).parBuf, EntryShape x) ∧
      (∀ x ∈ (if st.inList && !st.listBuf.isEmpty then flushListBuf st else st).listBuf, EntryShape x) := by
    split
    · exact flushListBuf_inv st hc hp hl
    · exact ⟨hc, hp, hl⟩
  set st1 := if st.inList && !st.listBuf.isEmpty then flushListBuf st else st with hst1
  split
  · next hpe =>
    exact (flushParBuf_inv st1 s1.1 s1.2.1 s1.2.2 (by simpa [List.isEmpty_iff] using hpe)).1
  · exact s1.1

lemma classifierChunks_shape (ff pf : Bool) (footers : List String) (text : String) :
    ∀ c ∈ classifierChunks ff pf footers text, ChunkShape c := by
  unfold classifierChunks
  have h := processLoop_inv ff pf footers (pyLines text) initState
    (by simp [initState]) (by simp [initState]) (by simp [initState])
  exact endFlush_inv _ h.1 h.2.1 h.2.2

lemma countSubF_fuel : ∀ (f g : ℕ) (pat s : List Char), pat ≠ [] →
    s.length ≤ f → s.length ≤ g → countSubF f pat s = countSubF g pat s := by
  intro f
  induction f with
  | zero =>
    intro g pat s _ hf _
    have hs : s = [] := List.length_eq_zero.mp (Nat.le_zero.mp hf)
    subst hs
    cases g <;> rfl
  | succ f ih =>
    intro g pat s hpat hf hg
    cases s with
    | nil => cases g <;> rfl
    | cons c rest =>
      cases g with
      | zero => simp at hg
      | succ g' =>
        have hp1 : 1 ≤ pat.length := List.length_pos.mpr hpat
        simp only [List.length_cons] at hf hg
        simp only [countSubF]
        by_cases hpre : pat.isPrefixOf (c :: rest) = true
        · rw [if_pos hpre, if_pos hpre]
          congr 1
          apply ih g' pat _ hpat
          · rw [List.length_drop, List.length_cons]
            omega
          · rw [List.length_drop, List.length_cons]
            omega
        · rw [if_neg hpre, if_neg hpre]
          apply ih g' pat rest hpat
          · omega
          · omega

lemma countAt_cons_pos {pat : List Char} (c : Char) (rest : List Char) (hpat : pat ≠ [])
    (hpre : pat.isPrefixOf (c :: rest) = true) :
    countSubF (c :: rest).length pat (c :: rest) =
      1 + countSubF ((c :: rest).drop pat.length).length pat ((c :: rest).drop pat.length) := by
  have hp1 : 1 ≤ pat.length := List.length_pos.mpr hpat
  show countSubF (rest.length + 1) pat (c :: rest) = _
  simp only [countSubF, if_pos hpre]
  congr 1
  apply countSubF_fuel _ _ _ _ hpat
  · rw [List.length_drop, List.length_cons]
    omega
  · exact le_rfl

lemma countAt_cons_neg {pat : List Char} (c : Char) (rest : List Char)
    (hpre : pat.isPrefixOf (c :: rest) = false) :
    countSubF (c :: rest).length pat (c :: rest) = countSubF rest.length pat rest := by
  show countSubF (rest.length + 1) pat (c :: rest) = _
  simp only [countSubF, hpre, Bool.false_eq_true, if_false]

lemma mem_of_getLast_nl {a : List Char} (ha : a.getLast? = some '\n') : '\n' ∈ a := by
  rcases List.getLast?_eq_some_iff.mp ha with ⟨ys, hys⟩
  rw [hys]
  exact List.mem_append.mpr (Or.inr (List.mem_singleton.mpr rfl))

lemma prefix_of_append_of_last_nl {pat a b : List Char} (hnl : '\n' ∉ pat)
    (ha : a.getLast? = some '\n') (hpre : pat <+: a ++ b) :
    pat <+: a := by
  rcases List.prefix_or_prefix_of_prefix hpre (List.prefix_append a b) with h | h
  · exact h
  · exfalso
    exact hnl (List.Sublist.mem (mem_of_getLast_nl ha) (List.IsPrefix.sublist h))

lemma drop_last_nl {a : List Char} (k : ℕ) (hk : k ≤ a.length)
    (ha : a.getLast? = some '\n') :
    a.drop k = [] ∨ (a.drop k).getLast? = some '\n' := by
  rcases List.getLast?_eq_some_iff.mp ha with ⟨ys, hys⟩
  subst hys
  rcases Nat.lt_or_ge k (ys.length + 1) with h | h
  · right
    have hk2 : k ≤ ys.length := by omega
    rw [List.drop_append_of_le_length hk2]
    exact List.getLast?_concat _
  · left
    apply List.drop_eq_nil_of_le
    simp only [List.length_append, List.length_singleton]
    omega

lemma countSub_append (pat : List Char) (hpat : pat ≠ []) (hnl : '\n' ∉ pat) :
    ∀ (n : ℕ) (a b : List Char), a.length ≤ n → (a = [] ∨ a.getLast? = some '\n') →
    countSubF (a ++ b).length pat (a ++ b) =
      countSubF a.length pat a + countSubF b.length pat b := by
  intro n
  induction n with
  | zero =>
    intro a b hlen _
    have ha : a = [] := List.length_eq_zero.mp (Nat.le_zero.mp hlen)
    subst ha
    have h0 : countSubF 0 pat ([] : List Char) = 0 := rfl
    simp [h0]
  | succ n ih =>
    intro a b hlen ha
    cases a with
    | nil =>
      have h0 : countSubF 0 pat ([] : List Char) = 0 := rfl
      simp [h0]
    | cons c a' =>
      have hlast : (c :: a').getLast? = some '\n' := ha.resolve_left (by simp)
      have hp1 : 1 ≤ pat.length := List.length_pos.mpr hpat
      by_cases hpre : pat.isPrefixOf (c :: (a' ++ b)) = true
      · have hpfx : pat <+: (c :: a') :=
          prefix_of_append_of_last_nl hnl hlast (List.isPrefixOf_iff_prefix.mp hpre)
        have hplen : pat.length ≤ (c :: a').length := List.IsPrefix.length_le hpfx
        have hpre2 : pat.isPrefixOf (c :: a') = true := List.isPrefixOf_iff_prefix.mpr hpfx
        have e1 : (c :: a') ++ b = c :: (a' ++ b) := rfl
        rw [e1, countAt_cons_pos c (a' ++ b) hpat hpre, countAt_cons_pos c a' hpat hpre2]
        have e2 : (c :: (a' ++ b)).drop pat.length = (c :: a').drop pat.length ++ b := by
          rw [← e1]
          exact List.drop_append_of_le_length hplen
        rw [e2]
        have hlen2 : ((c :: a').drop pat.length).length ≤ n := by
          rw [List.length_drop]
          simp only [List.length_cons] at hlen ⊢
          omega
        rw [ih _ b hlen2 (drop_last_nl pat.length hplen hlast)]
        omega
      · have hpre2 : pat.isPrefixOf (c :: a') = false := by
          cases hx : pat.isPrefixOf (c :: a')
          · rfl
          · exfalso
            apply hpre
            exact List.isPrefixOf_iff_prefix.mpr
              (List.IsPrefix.trans (List.isPrefixOf_iff_prefix.mp hx) (List.prefix_append _ _))
        have hpre' : pat.isPrefixOf (c :: (a' ++ b)) = false := by
          cases hx : pat.isPrefixOf (c :: (a' ++ b))
          · rfl
          · exact absurd hx (by simpa using hpre)
        have e1 : (c :: a') ++ b = c :: (a' ++ b) := rfl
        rw [e1, countAt_cons_neg c (a' ++ b) hpre', countAt_cons_neg c a' hpre2]
        have ha' : a' = [] ∨ a'.getLast? = some '\n' := by
          cases a' with
          | nil => exact Or.inl rfl
          | cons d r =>
            right
            rwa [List.getLast?_cons_cons] at hlast
        exact ih a' b (by simp only [List.length_cons] at hlen; omega) ha'

lemma joinAll_data : ∀ (L : List String), (joinAll L).data = (L.map String.data).flatten := by
  intro L
  induction L with
  | nil => rfl
  | cons x xs ih => simp [joinAll, string_data_append, ih]

lemma countSub_joinAll (pat : List Char) (hpat : pat ≠ []) (hnl : '\n' ∉ pat) :
    ∀ (L : List String), (∀ c ∈ L, ∃ t : String, c = t ++ "\n") →
      countSubF (joinAll L).data.length pat (joinAll L).data =
        (L.map (fun c => countSubF c.data.length pat c.data)).sum := by
  intro L
  induction L with
  | nil => intro _; rfl
  | cons x xs ih =>
    intro hsh
    have hx : (joinAll (x :: xs)).data = x.data ++ (joinAll xs).data := by
      show (x ++ joinAll xs).data = _
      rw [string_data_append]
    rw [hx]
    obtain ⟨t, ht⟩ := hsh x (List.mem_cons_self _ _)
    have hlast : x.data = [] ∨ x.data.getLast? = some '\n' := by
      right
      rw [ht, string_data_append]
      exact List.getLast?_concat _
    rw [countSub_append pat hpat hnl x.data.length x.data (joinAll xs).data le_rfl hlast]
    rw [ih (fun c hc => hsh c (List.mem_cons_of_mem _ hc))]
    simp

lemma countAt_self_append (pat s : List Char) (hpat : pat ≠ []) :
    countSubF (pat ++ s).length pat (pat ++ s) = 1 + countSubF s.length pat s := by
  cases pat with
  | nil => exact absurd rfl hpat
  | cons p pr =>
    have hpre : (p :: pr).isPrefixOf ((p :: pr) ++ s) = true :=
      List.isPrefixOf_iff_prefix.mpr (List.prefix_append _ _)
    have e1 : (p :: pr) ++ s = p :: (pr ++ s) := rfl
    rw [e1, countAt_cons_pos p (pr ++ s) hpat (e1 ▸ hpre)]
    congr 2 <;> rw [← e1, List.drop_left]

lemma countAt_zero_of_head_notin (p : Char) (pr : List Char) :
    ∀ (s : List Char), p ∉ s → countSubF s.length (p :: pr) s = 0 := by
  intro s
  induction s with
  | nil => intro _; rfl
  | cons c rest ih =>
    intro h
    have hpre : (p :: pr).isPrefixOf (c :: rest) = false := by
      cases hx : (p :: pr).isPrefixOf (c :: rest)
      · rfl
      · exfalso
        have := List.isPrefixOf_iff_prefix.mp hx
        rcases List.cons_prefix_cons.mp this with ⟨heq, -⟩
        exact h (heq ▸ List.mem_cons_self _ _)
    rw [countAt_cons_neg c rest hpre]
    exact ih (fun hm => h (List.mem_cons_of_mem _ hm))

lemma decChars_ne : ∀ (fuel n : ℕ) (c : Char), c ∈ decChars fuel n → c ≠ '#' ∧ c ≠ '\n' := by
  intro fuel
  induction fuel with
  | zero => intro n c h; simp [decChars] at h
  | succ fuel ih =>
    intro n c h
    simp only [decChars] at h
    split at h
    · next hlt =>
      rw [List.mem_singleton.mp h]
      interval_cases n <;> exact ⟨by decide, by decide⟩
    · rcases List.mem_append.mp h with h1 | h1
      · exact ih _ _ h1
      · rw [List.mem_singleton.mp h1]
        have : n % 10 < 10 := Nat.mod_lt n (by norm_num)
        interval_cases h2 : n % 10 <;> exact ⟨by decide, by decide⟩

lemma header_count (n : ℕ) :
    countSubF ("## Page " ++ natStr (n + 1) ++ "\n\n").data.length "## Page ".data
      ("## Page " ++ natStr (n + 1) ++ "\n\n").data = 1 := by
  have hdata : ("## Page " ++ natStr (n + 1) ++ "\n\n").data =
      "## Page ".data ++ (natStr (n + 1) ++ "\n\n").data := by
    rw [string_append_assoc, string_data_append]
  rw [hdata, countAt_self_append _ _ (by decide)]
  have hhead : "## Page ".data = '#' :: "# Page ".data := rfl
  rw [hhead, countAt_zero_of_head_notin]
  intro hmem
  rw [string_data_append] at hmem
  rcases List.mem_append.mp hmem with h | h
  · exact (decChars_ne _ _ _ h).1 rfl
  · exact absurd h (by decide)

lemma sum_map_flatMap (L : List ℕ) (f : ℕ → List String) (g : String → ℕ) :
    ((L.flatMap f).map g).sum = (L.map (fun n => ((f n).map g).sum)).sum := by
  induction L with
  | nil => rfl
  | cons x xs ih => simp [List.flatMap_cons, List.map_append, List.sum_append, ih]

lemma sum_ite_eq_filter_length (p : ℕ → Bool) :
    ∀ (L : List ℕ), (L.map (fun n => if p n then 1 else 0)).sum = (L.filter p).length := by
  intro L
  induction L with
  | nil => rfl
  | cons x xs ih =>
    cases hx : p x <;> simp [List.filter_cons, hx, ih, Nat.add_comm]

lemma append_nlnl (x : String) : x ++ "\n\n" = (x ++ "\n") ++ "\n" := by
  rw [string_append_assoc]
  rfl

lemma pageChunks_shape (opts : ExtractOptions) (footers : List String) (n endPage : ℕ)
    (text : String) : ∀ c ∈ pageChunks opts footers n endPage text, ∃ t : String, c = t ++ "\n" := by
  intro c hc
  simp only [pageChunks] at hc
  split at hc
  · simp at hc
  · rcases List.mem_append.mp hc with h1 | h1
    · simp only [headerChunks] at h1
      split at h1
      · rw [List.mem_singleton.mp h1]
        exact ⟨"## Page " ++ natStr (n + 1) ++ "\n", by rw [← append_nlnl]⟩
      · simp at h1
    · simp only [bodyChunks] at h1
      rcases List.mem_append.mp h1 with h2 | h2
      · exact (classifierChunks_shape _ _ _ _ c h2).1
      · simp only [sepChunks] at h2
        split at h2
        · rw [List.mem_singleton.mp h2]
          exact ⟨"\n---\n", rfl⟩
        · simp at h2

lemma allChunks_shape (pages : List PdfPage) (s e : ℕ) (opts : ExtractOptions) :
    ∀ c ∈ allChunks pages s e opts, ∃ t : String, c = t ++ "\n" := by
  intro c hc
  simp only [allChunks] at hc
  rcases List.mem_flatMap.mp hc with ⟨n, -, hmem⟩
  exact pageChunks_shape _ _ _ _ _ c hmem

lemma pyCount_page_eq (c : String) :
    pyCount "## Page " c = countSubF c.data.length "## Page ".data c.data := by
  unfold pyCount
  rw [if_neg (by decide)]

/-- **C1, counterexample.**  A page that yields no text renders nothing — not
even its `## Page` heading: on a one-page document whose page produces no
text, with the valid range 1–1 and `include_page_numbers` true, the output
is empty, so it contains 0 occurrences of `"## Page "` instead of the
claimed `end - start + 1 = 1`. -/
theorem c1_counterexample :
    extract_text_to_markdown ⟨[⟨"", ""⟩], [[]]⟩
        ⟨false, false, false, Except.error "", false, Except.error ""⟩
        1 1 defaultOptions = Except.ok "" ∧
      pyCount "## Page "
        ((extract_text_to_markdown ⟨[⟨"", ""⟩], [[]]⟩
            ⟨false, false, false, Except.error "", false, Except.error ""⟩
            1 1 defaultOptions).toOption.getD "") ≠ 1 - 1 + 1 :=
  ⟨rfl, by decide⟩

/-- **C1, amended.**  For every valid page range, when `include_page_numbers`
is true and no body chunk of any page contains the substring `"## Page "`
itself, the rendered output of the pdfplumber fallback contains exactly one
occurrence of `"## Page "` per page in the range *that yields non-empty
text*; pages that yield no text contribute neither heading nor section. -/
theorem c1_page_heading_count (pages : List PdfPage) (s e : ℕ) (opts : ExtractOptions)
    (hpn : opts.include_page_numbers = true)
    (hv : 1 ≤ s ∧ s ≤ e ∧ e ≤ pages.length)
    (hb : ∀ n ∈ pageRange s e,
      ∀ c ∈ bodyChunks opts
          (if opts.filter_headers_footers then commonFooters pages s e else []) n e
          (pages.getD n ⟨"", ""⟩).layoutText,
        pyCount "## Page " c = 0) :
    pyCount "## Page " ((pdfplumberFallback pages s e opts).toOption.getD "") =
      ((pageRange s e).filter fun n => (pages.getD n ⟨"", ""⟩).layoutText ≠ "").length := by
  have hok : (pdfplumberFallback pages s e opts).toOption.getD "" =
      joinAll (allChunks pages s e opts) := by
    simp only [pdfplumberFallback]
    rw [if_neg (by simp only [Bool.or_eq_true, decide_eq_true_eq, not_or]; omega)]
    rfl
  rw [hok, pyCount_page_eq]
  rw [countSub_joinAll _ (by decide) (by decide) _ (allChunks_shape pages s e opts)]
  simp only [allChunks]
  rw [sum_map_flatMap]
  have hpw : ∀ n ∈ pageRange s e,
      ((pageChunks opts
          (if opts.filter_headers_footers then commonFooters pages s e else []) n e
          (pages.getD n ⟨"", ""⟩).layoutText).map
        (fun c => countSubF c.data.length "## Page ".data c.data)).sum =
      if ((pages.getD n ⟨"", ""⟩).layoutText ≠ "" : Bool) = true then 1 else 0 := by
    intro n hn
    set tx := (pages.getD n ⟨"", ""⟩).layoutText with htx
    by_cases htext : tx = ""
    · have hp : (decide (tx ≠ "")) = false := by simp [htext]
      simp only [pageChunks, if_pos htext, List.map_nil, List.sum_nil, hp,
        Bool.false_eq_true, if_false]
    · have hp : (decide (tx ≠ "")) = true := by simp [htext]
      simp only [pageChunks, if_neg htext, hp, if_true]
      rw [List.map_append, List.sum_append]
      have hhdr : ((headerChunks opts n).map
          (fun c => countSubF c.data.length "## Page ".data c.data)).sum = 1 := by
        simp only [headerChunks, hpn, if_true, List.map_cons, List.map_nil,
          List.sum_cons, List.sum_nil]
        rw [header_count n]
        norm_num
      have hbody : ((bodyChunks opts
          (if opts.filter_headers_footers then commonFooters pages s e else []) n e
          tx).map (fun c => countSubF c.data.length "## Page ".data c.data)).sum = 0 := by
        apply List.sum_eq_zero
        intro x hx
        rcases List.mem_map.mp hx with ⟨c, hc, hce⟩
        rw [← hce, ← pyCount_page_eq]
        exact hb n hn c (htx ▸ hc)
      rw [hhdr, hbody]
  rw [List.map_congr_left hpw]
  exact sum_ite_eq_filter_length _ (pageRange s e)

/-- **C1 witness** (for the amended theorem). -/
theorem c1_page_heading_count_witness :
    pyCount "## Page "
        ((pdfplumberFallback [⟨"", "Hello"⟩, ⟨"", ""⟩, ⟨"", "World"⟩] 1 3
          defaultOptions).toOption.getD "") = 2 :=
  (c1_page_heading_count [⟨"", "Hello"⟩, ⟨"", ""⟩, ⟨"", "World"⟩] 1 3 defaultOptions
    rfl (by decide) (by decide)).trans (by decide)

lemma string_append_empty (x : String) : x ++ "" = x := by
  cases x
  show String.mk _ = String.mk _
  rw [List.append_nil]

lemma joinAll_append_singleton : ∀ (L : List String) (x : String),
    joinAll (L ++ [x]) = joinAll L ++ x := by
  intro L x
  induction L with
  | nil =>
    show x ++ "" = "" ++ x
    rw [string_append_empty]
    rfl
  | cons y ys ih =>
    show y ++ joinAll (ys ++ [x]) = (y ++ joinAll ys) ++ x
    rw [ih, string_append_assoc]

lemma pymupdf_page_ends (blocks : List String) (n : ℕ) :
    ∃ t : String, joinAll (pymupdfPageChunks blocks n) = t ++ "\n---\n\n" := by
  refine ⟨joinAll (["## Page " ++ natStr (n + 1) ++ "\n\n"] ++
    blocks.filterMap (fun b => if pyStrip b = "" then none else some (pyStrip b ++ "\n\n"))), ?_⟩
  rw [← joinAll_append_singleton]
  rfl

lemma joinAll_ends : ∀ (L : List String), L ≠ [] →
    (∀ x ∈ L, ∃ t : String, x = t ++ "\n---\n\n") →
    ∃ t : String, joinAll L = t ++ "\n---\n\n" := by
  intro L
  induction L with
  | nil => intro h _; exact absurd rfl h
  | cons x ys ih =>
    intro _ hall
    cases ys with
    | nil =>
      obtain ⟨t, ht⟩ := hall x (List.mem_cons_self _ _)
      refine ⟨t, ?_⟩
      show x ++ "" = _
      rw [string_append_empty, ht]
    | cons y ys' =>
      obtain ⟨t, ht⟩ := ih (by simp) (fun z hz => hall z (List.mem_cons_of_mem _ hz))
      refine ⟨x ++ t, ?_⟩
      show x ++ joinAll (y :: ys') = _
      rw [ht, string_append_assoc]

/-- **C9, counterexample.**  The PyMuPDF backend appends the horizontal-rule
separator after *every* page it renders, including the last page of the
requested range (and it never consults `include_page_breaks`): on a one-page
document the output is the page followed by `"\n---\n\n"`. -/
theorem c9_counterexample :
    extract_with_pymupdf [["Hello"]] 1 1 = "## Page 1\n\nHello\n\n" ++ "\n---\n\n" := rfl

/-- **C9, amended.**  In the pdfplumber fallback with `include_page_breaks`
true, a page's chunk list contains the separator `"\n---\n\n"` exactly when
the page renders text and is not the last page of the requested range — so
no separator is ever emitted after the last page there.  The PyMuPDF
backend, in contrast, ends its output with a separator after the last
rendered page whenever the range is non-trivial. -/
theorem c9_separators :
    (∀ (opts : ExtractOptions) (footers : List String) (n endPage : ℕ) (text : String),
      opts.include_page_breaks = true →
      ("\n---\n\n" ∈ pageChunks opts footers n endPage text ↔
        text ≠ "" ∧ n < endPage - 1)) ∧
    (∀ (doc : List (List String)) (s e : ℕ), s - 1 < e → s - 1 < doc.length →
      ∃ t : String, extract_with_pymupdf doc s e = t ++ "\n---\n\n") := by
  constructor
  · intro opts footers n endPage text hib
    constructor
    · intro hmem
      simp only [pageChunks] at hmem
      split at hmem
      · simp at hmem
      · next htext =>
        refine ⟨htext, ?_⟩
        rcases List.mem_append.mp hmem with h1 | h1
        · simp only [headerChunks] at h1
          split at h1
          · have heq := List.mem_singleton.mp h1
            have hd : ("\n---\n\n" : String).data.head? =
                ("## Page " ++ natStr (n + 1) ++ "\n\n" : String).data.head? := by
              rw [heq]
            rw [string_append_assoc, data_append_head _ _ (by decide)] at hd
            exact absurd hd (by decide)
          · simp at h1
        · simp only [bodyChunks] at h1
          rcases List.mem_append.mp h1 with h2 | h2
          · have hs := classifierChunks_shape _ _ _ _ _ h2
            rcases hs.2 with h3 | h3
            · exact absurd h3 (by decide)
            · exact absurd (by decide : ("\n---\n\n" : String).data.head? = some '\n') h3.2
          · simp only [sepChunks] at h2
            split at h2
            · next hcond =>
              simp only [Bool.and_eq_true, decide_eq_true_eq] at hcond
              exact hcond.2
            · simp at h2
    · rintro ⟨htext, hlt⟩
      simp only [pageChunks, if_neg htext]
      refine List.mem_append.mpr (Or.inr ?_)
      simp only [bodyChunks]
      refine List.mem_append.mpr (Or.inr ?_)
      simp only [sepChunks]
      rw [if_pos (by simp [hib, hlt])]
      exact List.mem_singleton.mpr rfl
  · intro doc s e h1 h2
    unfold extract_with_pymupdf
    obtain ⟨k, hk⟩ : ∃ k, e - (s - 1) = k + 1 := ⟨e - (s - 1) - 1, by omega⟩
    have hrange : pageRange s e = (s - 1) :: List.range' (s - 1 + 1) k := by
      unfold pageRange
      rw [hk, List.range'_succ]
    rw [hrange]
    rw [List.takeWhile_cons_of_pos (by simpa using h2)]
    apply joinAll_ends
    · simp
    · intro z hz
      rcases List.mem_map.mp hz with ⟨m, -, hm⟩
      rw [← hm]
      exact pymupdf_page_ends _ _

/-- **C9 witness.** -/
theorem c9_separators_witness :
    "\n---\n\n" ∈ pageChunks defaultOptions [] 0 2 "Hello" :=
  (c9_separators.1 defaultOptions [] 0 2 "Hello" rfl).mpr ⟨by decide, by decide⟩

end MdExtract
